import Mathlib

/-
Verification of the DCC053 user-space heap allocator
(src/21_HeapAllocation: 1_heap.c, v2_heap.c, v3_heap.c).

The three C files are embedded shallowly:

- V1 models 1_heap.c.  Its header fields are multi-byte machine values
  (size_t, int, pointer), so memory is modeled at header granularity: a
  function from arena offset to the header record stored there.  Pointers
  are modeled as Option Nat arena offsets (none = NULL).
- V2 models v2_heap.c.  All header fields are single uint8_t bytes, so the
  arena is modeled exactly as the C array: a function from byte index to
  byte value, with every store reduced modulo 256 as uint8_t stores are.
- V3 models v3_heap.c the same way as V2 (header adds a ref_count byte).

The C while loops are embedded as fuel-indexed recursions returning Option
(none = fuel exhausted); the wrappers use a fuel no smaller than the heap
size, and termination theorems show the fuel is never exhausted on
reachable states.
-/

namespace V1

/-- Total size of the simulated heap (1_heap.c, HEAP_SIZE). -/
def HEAP_SIZE : Nat := 128

/-- Memory alignment (1_heap.c, ALIGNMENT). -/
def ALIGNMENT : Nat := 8

/-- ALIGN(size) = ((size + 7) & ~7): round up to a multiple of 8.
For natural numbers this equals (size + 7) minus its remainder mod 8. -/
def ALIGN (sz : Nat) : Nat := (sz + (ALIGNMENT - 1)) - (sz + (ALIGNMENT - 1)) % ALIGNMENT

/-- BlockHeader of 1_heap.c: size (size_t), is_free (int),
next (pointer, modeled as an Option arena offset, none = NULL). -/
structure BlockHeader where
  size : Nat
  is_free : Nat
  next : Option Nat
deriving DecidableEq

/-- sizeof(BlockHeader) on an LP64 target: 8 (size_t) + 4 (int) + 4
(padding) + 8 (pointer) = 24 bytes. -/
def HDR : Nat := 24

/-- The heap at header granularity: the header record stored at each
arena offset.  The static array is zero-initialized, which reads back as
the all-zero header (a zero pointer is NULL). -/
def Mem : Type := Nat → BlockHeader

/-- Store a header record at an arena offset. -/
def upd (m : Mem) (o : Nat) (h : BlockHeader) : Mem :=
  fun j => if j = o then h else m j

/-- The zero-initialized static heap array. -/
def heap0 : Mem := fun _ => ⟨0, 0, none⟩

/-- free_list is set to the start of the heap by init_heap and never
reassigned afterwards. -/
def free_list : Nat := 0

/-- init_heap of 1_heap.c. -/
def init_heap : Mem := upd heap0 0 ⟨HEAP_SIZE - HDR, 1, none⟩

/-- Body of the successful-fit branch of my_malloc (1_heap.c lines 43-57):
optional split, then mark allocated. -/
def allocAt (m : Mem) (cur sz : Nat) : Mem :=
  let remaining := (m cur).size - sz
  let m2 :=
    if HDR < remaining then
      let new_block := cur + HDR + sz
      let m1 := upd m new_block ⟨remaining - HDR, 1, (m cur).next⟩
      upd m1 cur ⟨sz, (m1 cur).is_free, some new_block⟩
    else m
  upd m2 cur ⟨(m2 cur).size, 0, (m2 cur).next⟩

/-- The while loop of my_malloc (1_heap.c lines 41-61), fuel-indexed;
none means the fuel ran out before the loop exited. -/
def malloc_loop (m : Mem) (sz : Nat) (cur : Option Nat) (fuel : Nat) :
    Option (Mem × Option Nat) :=
  match fuel with
  | 0 => none
  | fuel + 1 =>
    match cur with
    | none => some (m, none)
    | some c =>
      if (m c).is_free ≠ 0 ∧ sz ≤ (m c).size then
        some (allocAt m c sz, some (c + HDR))
      else
        malloc_loop m sz (m c).next fuel

/-- my_malloc of 1_heap.c: reject 0, align the request, then first-fit
walk from free_list.  Fuel 128 exceeds any possible block count. -/
def my_malloc (m : Mem) (sz : Nat) : Mem × Option Nat :=
  if sz = 0 then (m, none)
  else (malloc_loop m (ALIGN sz) (some free_list) 128).getD (m, none)

/-- my_free of 1_heap.c: NULL is ignored; otherwise the header one
HDR before the payload is marked free.  No coalescing is performed. -/
def my_free (m : Mem) (p : Option Nat) : Mem :=
  match p with
  | none => m
  | some q =>
    let o := q - HDR
    upd m o ⟨(m o).size, 1, (m o).next⟩

end V1

namespace V2

/-- Total size of the simulated heap (v2_heap.c, HEAP_SIZE). -/
def HEAP_SIZE : Nat := 128

/-- sizeof(BlockHeader) in v2_heap.c: three uint8_t fields
(size at byte 0, is_free at byte 1, next at byte 2). -/
def HDR : Nat := 3

/-- The heap memory pool as a byte array: index to byte value. -/
abbrev Mem : Type := Nat → Nat

/-- Store one byte; a uint8_t store keeps the value modulo 256. -/
def wr (m : Mem) (i v : Nat) : Mem := fun j => if j = i then v % 256 else m j

/-- The size field of the header at offset o. -/
def size (m : Mem) (o : Nat) : Nat := m o

/-- The is_free field of the header at offset o. -/
def is_free (m : Mem) (o : Nat) : Nat := m (o + 1)

/-- The next field of the header at offset o. -/
def next (m : Mem) (o : Nat) : Nat := m (o + 2)

def setSize (m : Mem) (o v : Nat) : Mem := wr m o v

def setFree (m : Mem) (o v : Nat) : Mem := wr m (o + 1) v

def setNext (m : Mem) (o v : Nat) : Mem := wr m (o + 2) v

/-- free_list of v2_heap.c: statically 0 and never reassigned. -/
def free_list : Nat := 0

/-- init_heap of v2_heap.c over the zero-initialized static array. -/
def init_heap : Mem :=
  setNext (setFree (setSize (fun _ => 0) 0 (HEAP_SIZE - HDR)) 0 1) 0 0

/-- Body of the successful-fit branch of my_malloc (v2_heap.c lines
36-56), with the stores in source order: optional split (new block
header written at current_offset + HDR + size), then mark allocated. -/
def allocAt (m : Mem) (cur sz : Nat) : Mem :=
  let remaining := size m cur - sz
  let m5 :=
    if HDR < remaining then
      let new_offset := (cur + HDR + sz) % 256
      let m1 := setSize m new_offset (remaining - HDR)
      let m2 := setFree m1 new_offset 1
      let m3 := setNext m2 new_offset (next m2 cur)
      let m4 := setNext m3 cur new_offset
      setSize m4 cur sz
    else m
  setFree m5 cur 0

/-- The while loop of my_malloc (v2_heap.c lines 30-63), fuel-indexed;
none means the fuel ran out before the loop exited. -/
def malloc_loop (m : Mem) (sz cur fuel : Nat) : Option (Mem × Option Nat) :=
  match fuel with
  | 0 => none
  | fuel + 1 =>
    if cur < HEAP_SIZE then
      if is_free m cur ≠ 0 ∧ sz ≤ size m cur then
        some (allocAt m cur sz, some (cur + HDR))
      else
        if next m cur = 0 then some (m, none)
        else malloc_loop m sz (next m cur) fuel
    else some (m, none)

/-- my_malloc of v2_heap.c.  The uint8_t parameter is taken modulo 256;
fuel 128 exceeds any possible block count. -/
def my_malloc (m : Mem) (sz : Nat) : Mem × Option Nat :=
  (malloc_loop m (sz % 256) free_list 128).getD (m, none)

/-- my_free of v2_heap.c: NULL is ignored; otherwise the block whose
payload starts at the argument is marked free (uint8_t offset
arithmetic: ptr - heap - HDR reduces modulo 256).  Nothing else is
written: this version performs no coalescing. -/
def my_free (m : Mem) (p : Option Nat) : Mem :=
  match p with
  | none => m
  | some q => setFree m ((q + 256 - HDR) % 256) 1

/-- The while loop of coalesce_memory (v2_heap.c lines 84-94),
fuel-indexed. -/
def coalesce_loop (m : Mem) (blk fuel : Nat) : Option Mem :=
  match fuel with
  | 0 => none
  | fuel + 1 =>
    if next m blk = 0 then some m
    else
      let nb := next m blk
      if is_free m blk ≠ 0 ∧ is_free m nb ≠ 0 then
        let m1 := setSize m blk (size m blk + HDR + size m nb)
        let m2 := setNext m1 blk (next m1 nb)
        coalesce_loop m2 blk fuel
      else coalesce_loop m nb fuel

/-- coalesce_memory of v2_heap.c: full sweep from the heap start. -/
def coalesce_memory (m : Mem) : Mem := (coalesce_loop m free_list 128).getD m

/-- The read-only traversal of print_heap (v2_heap.c lines 99-111),
returning the sequence of (offset, size, is_free, next) tuples it
visits. -/
def print_loop (m : Mem) (cur fuel : Nat) :
    Option (List (Nat × Nat × Nat × Nat)) :=
  match fuel with
  | 0 => none
  | fuel + 1 =>
    if cur < HEAP_SIZE then
      let entry := (cur, size m cur, is_free m cur, next m cur)
      if next m cur = 0 then some [entry]
      else (print_loop m (next m cur) fuel).map (entry :: ·)
    else some []

/-- print_heap of v2_heap.c as its visited-tuple sequence. -/
def print_heap (m : Mem) : Option (List (Nat × Nat × Nat × Nat)) :=
  print_loop m free_list 128

/-- The offsets visited by following next links from an offset until a
zero link, fuel-indexed (used to state pointer validity). -/
def chain (m : Mem) (cur fuel : Nat) : Option (List Nat) :=
  match fuel with
  | 0 => none
  | fuel + 1 =>
    if next m cur = 0 then some [cur]
    else (chain m (next m cur) fuel).map (cur :: ·)

/-- A pointer is a valid argument of my_free when it is NULL or the
payload address of a block currently on the list.  The release contract
of the specification makes any other argument undefined behavior. -/
def validPtr (m : Mem) (p : Option Nat) : Bool :=
  match p with
  | none => true
  | some q =>
    match chain m free_list 128 with
    | some l => l.any (fun o => decide (q = o + HDR))
    | none => false

/-- The well-formed block chain starting at an offset: each block links
to the header immediately after its own header-plus-payload region, and
the terminal block ends exactly at HEAP_SIZE. -/
inductive BlocksFrom (m : Mem) : Nat → List Nat → Prop where
  | base (o : Nat) : next m o = 0 → o + HDR + size m o = HEAP_SIZE →
      BlocksFrom m o [o]
  | cons (o : Nat) (l : List Nat) : next m o ≠ 0 →
      next m o = o + HDR + size m o → BlocksFrom m (next m o) l →
      BlocksFrom m o (o :: l)

/-- The first block in a given offset list that is free and at least as
large as the request (the first-fit search policy of the spec). -/
def firstFitIn (m : Mem) (sz : Nat) : List Nat → Option Nat
  | [] => none
  | o :: l =>
    if is_free m o ≠ 0 ∧ sz ≤ size m o then some o else firstFitIn m sz l

/-- Heap states reachable from init_heap by my_malloc, my_free on a
valid pointer (NULL or a current block payload; anything else is
undefined behavior by the release contract), and coalesce_memory. -/
inductive Reachable : Mem → Prop where
  | init : Reachable init_heap
  | step_malloc (m : Mem) (n : Nat) : Reachable m →
      Reachable (my_malloc m n).1
  | step_free (m : Mem) (p : Option Nat) : Reachable m →
      validPtr m p = true → Reachable (my_free m p)
  | step_coalesce (m : Mem) : Reachable m →
      Reachable (coalesce_memory m)

end V2

namespace V3

/-- Total size of the simulated heap (v3_heap.c, HEAP_SIZE). -/
def HEAP_SIZE : Nat := 64

/-- sizeof(BlockHeader) in v3_heap.c: four uint8_t fields (size at byte
0, is_free at byte 1, next at byte 2, ref_count at byte 3). -/
def HDR : Nat := 4

/-- The heap memory pool as a byte array. -/
abbrev Mem : Type := Nat → Nat

def wr (m : Mem) (i v : Nat) : Mem := fun j => if j = i then v % 256 else m j

def size (m : Mem) (o : Nat) : Nat := m o

def is_free (m : Mem) (o : Nat) : Nat := m (o + 1)

def next (m : Mem) (o : Nat) : Nat := m (o + 2)

def ref_count (m : Mem) (o : Nat) : Nat := m (o + 3)

def setSize (m : Mem) (o v : Nat) : Mem := wr m o v

def setFree (m : Mem) (o v : Nat) : Mem := wr m (o + 1) v

def setNext (m : Mem) (o v : Nat) : Mem := wr m (o + 2) v

def setRef (m : Mem) (o v : Nat) : Mem := wr m (o + 3) v

def free_list : Nat := 0

/-- init_heap of v3_heap.c over the zero-initialized static array. -/
def init_heap : Mem :=
  setRef (setNext (setFree (setSize (fun _ => 0) 0 (HEAP_SIZE - HDR)) 0 1) 0 0) 0 0

/-- The uint8_t block offset computed by the v3 functions from a payload
pointer: ptr - heap - HDR, reduced modulo 256. -/
def blockOffset (q : Nat) : Nat := (q + 256 - HDR) % 256

/-- Body of the successful-fit branch of my_malloc (v3_heap.c lines
38-61), with the stores in source order. -/
def allocAt (m : Mem) (cur sz : Nat) : Mem :=
  let remaining := size m cur - sz
  let m6 :=
    if HDR < remaining then
      let new_offset := (cur + HDR + sz) % 256
      let m1 := setSize m new_offset (remaining - HDR)
      let m2 := setFree m1 new_offset 1
      let m3 := setRef m2 new_offset 0
      let m4 := setNext m3 new_offset (next m3 cur)
      let m5 := setNext m4 cur new_offset
      setSize m5 cur sz
    else m
  setRef (setFree m6 cur 0) cur 1

/-- The while loop of my_malloc (v3_heap.c lines 33-67), fuel-indexed. -/
def malloc_loop (m : Mem) (sz cur fuel : Nat) : Option (Mem × Option Nat) :=
  match fuel with
  | 0 => none
  | fuel + 1 =>
    if cur < HEAP_SIZE then
      if is_free m cur ≠ 0 ∧ sz ≤ size m cur then
        some (allocAt m cur sz, some (cur + HDR))
      else
        if next m cur = 0 then some (m, none)
        else malloc_loop m sz (next m cur) fuel
    else some (m, none)

/-- my_malloc of v3_heap.c (uint8_t parameter taken modulo 256). -/
def my_malloc (m : Mem) (sz : Nat) : Mem × Option Nat :=
  (malloc_loop m (sz % 256) free_list 64).getD (m, none)

/-- my_free of v3_heap.c: NULL is ignored; an already-free block is left
untouched; otherwise the block is marked free and one step of forward
coalescing is attempted with its next neighbor. -/
def my_free (m : Mem) (p : Option Nat) : Mem :=
  match p with
  | none => m
  | some q =>
    let o := blockOffset q
    if is_free m o = 0 then
      let m1 := setFree m o 1
      if next m1 o ≠ 0 then
        let nb := next m1 o
        if is_free m1 nb ≠ 0 then
          let m2 := setSize m1 o (size m1 o + HDR + size m1 nb)
          setNext m2 o (next m2 nb)
        else m1
      else m1
    else m

/-- increment_ref of v3_heap.c: a uint8_t increment of ref_count
(modulo 256). -/
def increment_ref (m : Mem) (p : Option Nat) : Mem :=
  match p with
  | none => m
  | some q =>
    let o := blockOffset q
    setRef m o (ref_count m o + 1)

/-- decrement_ref of v3_heap.c: when ref_count is positive it is
decremented (a uint8_t decrement, modulo 256), and the block is freed
exactly when the decremented count is zero. -/
def decrement_ref (m : Mem) (p : Option Nat) : Mem :=
  match p with
  | none => m
  | some q =>
    let o := blockOffset q
    if 0 < ref_count m o then
      let m1 := setRef m o (ref_count m o + 255)
      if ref_count m1 o = 0 then my_free m1 (some q) else m1
    else m

/-- The well-formed v3 block chain starting at an offset: each block
links to the header immediately after its own header-plus-payload
region, and the terminal block ends exactly at HEAP_SIZE. -/
inductive Blocks3 (m : Mem) : Nat → List Nat → Prop where
  | base (o : Nat) : next m o = 0 → o + HDR + size m o = HEAP_SIZE →
      Blocks3 m o [o]
  | cons (o : Nat) (l : List Nat) : next m o ≠ 0 →
      next m o = o + HDR + size m o → Blocks3 m (next m o) l →
      Blocks3 m o (o :: l)

/-- The first block in a given offset list that is free and at least as
large as the request (the first-fit search policy). -/
def firstFitIn (m : Mem) (sz : Nat) : List Nat → Option Nat
  | [] => none
  | o :: l =>
    if is_free m o ≠ 0 ∧ sz ≤ size m o then some o else firstFitIn m sz l

/-- The offsets visited by following next links from an offset until a
zero link, fuel-indexed. -/
def chain (m : Mem) (cur fuel : Nat) : Option (List Nat) :=
  match fuel with
  | 0 => none
  | fuel + 1 =>
    if next m cur = 0 then some [cur]
    else (chain m (next m cur) fuel).map (cur :: ·)

/-- A pointer is a valid argument of my_free, increment_ref and
decrement_ref when it is NULL or the payload address of a block
currently on the list; anything else is undefined behavior by the
release contract of the specification. -/
def validPtr (m : Mem) (p : Option Nat) : Bool :=
  match p with
  | none => true
  | some q =>
    match chain m free_list 64 with
    | some l => l.any (fun o => decide (q = o + HDR))
    | none => false

/-- Heap states reachable from init_heap by my_malloc, my_free,
increment_ref and decrement_ref on valid pointers. -/
inductive Reachable : Mem → Prop where
  | init : Reachable init_heap
  | step_malloc (m : Mem) (n : Nat) : Reachable m →
      Reachable (my_malloc m n).1
  | step_free (m : Mem) (p : Option Nat) : Reachable m →
      validPtr m p = true → Reachable (my_free m p)
  | step_incr (m : Mem) (p : Option Nat) : Reachable m →
      validPtr m p = true → Reachable (increment_ref m p)
  | step_decr (m : Mem) (p : Option Nat) : Reachable m →
      validPtr m p = true → Reachable (decrement_ref m p)

end V3

namespace V1

/-- The well-formed v1 block chain starting at an offset: each block
links to the header immediately after its own header-plus-payload
region, and the terminal block (next = NULL) ends exactly at
HEAP_SIZE. -/
inductive Blocks (m : Mem) : Nat → List Nat → Prop where
  | base (o : Nat) : (m o).next = none → o + HDR + (m o).size = HEAP_SIZE →
      Blocks m o [o]
  | cons (o nx : Nat) (l : List Nat) : (m o).next = some nx →
      nx = o + HDR + (m o).size → Blocks m nx l → Blocks m o (o :: l)

/-- The first block in a given offset list that is free and at least as
large as the (already aligned) request: the first-fit search policy. -/
def firstFit (m : Mem) (sz : Nat) : List Nat → Option Nat
  | [] => none
  | o :: l =>
    if (m o).is_free ≠ 0 ∧ sz ≤ (m o).size then some o else firstFit m sz l

/-- Heap states reachable from init_heap by my_malloc and my_free
(1_heap.c has no separate coalesce pass). -/
inductive Reachable : Mem → Prop where
  | init : Reachable init_heap
  | step_malloc (m : Mem) (n : Nat) : Reachable m →
      Reachable (my_malloc m n).1
  | step_free (m : Mem) (p : Option Nat) : Reachable m →
      Reachable (my_free m p)

end V1

/-
Structural lemmas for the v2 embedding.
-/

namespace V2

theorem wr_ne (m : Mem) {i j : Nat} (v : Nat) (h : j ≠ i) : wr m i v j = m j := by
  simp [wr, h]

theorem wr_eq (m : Mem) (i v : Nat) : wr m i v i = v % 256 := by
  simp [wr]

theorem blocksFrom_head {m : Mem} {cur : Nat} {l : List Nat}
    (h : BlocksFrom m cur l) : ∃ l', l = cur :: l' := by
  cases h with
  | base o _ _ => exact ⟨[], rfl⟩
  | cons o l _ _ _ => exact ⟨l, rfl⟩

theorem blocksFrom_end_le {m : Mem} {cur : Nat} {l : List Nat}
    (h : BlocksFrom m cur l) : cur + HDR + size m cur ≤ HEAP_SIZE := by
  induction h with
  | base o h1 h2 => omega
  | cons o l h1 h2 _ ih => omega

theorem blocksFrom_mem_ge {m : Mem} {cur : Nat} {l : List Nat}
    (h : BlocksFrom m cur l) : ∀ b ∈ l, cur ≤ b := by
  induction h with
  | base o h1 h2 =>
    intro b hb
    simp only [List.mem_singleton] at hb
    omega
  | cons o l h1 h2 hsub ih =>
    intro b hb
    rcases List.mem_cons.mp hb with hb | hb
    · omega
    · have := ih b hb
      omega

theorem blocksFrom_mem_end_le {m : Mem} {cur : Nat} {l : List Nat}
    (h : BlocksFrom m cur l) : ∀ b ∈ l, b + HDR + size m b ≤ HEAP_SIZE := by
  induction h with
  | base o h1 h2 =>
    intro b hb
    simp only [List.mem_singleton] at hb
    subst hb
    omega
  | cons o l h1 h2 hsub ih =>
    intro b hb
    rcases List.mem_cons.mp hb with hb | hb
    · subst hb
      have := blocksFrom_end_le hsub
      omega
    · exact ih b hb

theorem blocksFrom_next_le {m : Mem} {cur b : Nat} {l : List Nat}
    (h : BlocksFrom m cur l) (hb : b ∈ l) (hne : b ≠ cur) :
    cur + HDR + size m cur ≤ b := by
  cases h with
  | base o h1 h2 =>
    simp only [List.mem_singleton] at hb
    omega
  | cons o l h1 h2 hsub =>
    rcases List.mem_cons.mp hb with hb | hb
    · omega
    · have := blocksFrom_mem_ge hsub b hb
      omega

theorem blocksFrom_separated {m : Mem} {cur b c : Nat} {l : List Nat}
    (h : BlocksFrom m cur l) (hb : b ∈ l) (hc : c ∈ l) (hne : b ≠ c) :
    b + HDR ≤ c ∨ c + HDR ≤ b := by
  induction h with
  | base o h1 h2 =>
    simp only [List.mem_singleton] at hb hc
    omega
  | cons o l h1 h2 hsub ih =>
    rcases List.mem_cons.mp hb with hb | hb
    · rcases List.mem_cons.mp hc with hc | hc
      · omega
      · have h3 := blocksFrom_mem_ge hsub c hc
        left; omega
    · rcases List.mem_cons.mp hc with hc | hc
      · have h3 := blocksFrom_mem_ge hsub b hb
        right; omega
      · exact ih hb hc

theorem blocksFrom_congr {m m' : Mem} {cur : Nat} {l : List Nat}
    (h : BlocksFrom m cur l)
    (hm : ∀ b ∈ l, m' b = m b ∧ m' (b + 2) = m (b + 2)) :
    BlocksFrom m' cur l := by
  induction h with
  | base o h1 h2 =>
    have ho := hm o (List.mem_singleton_self o)
    exact .base o (by simp only [next, ho.2]; exact h1)
      (by simp only [size, ho.1]; exact h2)
  | cons o l h1 h2 hsub ih =>
    have ho := hm o (List.mem_cons_self o l)
    have hnx : next m' o = next m o := by simp only [next, ho.2]
    have hsz : size m' o = size m o := by simp only [size, ho.1]
    refine .cons o l ?_ ?_ ?_
    · rw [hnx]; exact h1
    · rw [hnx, hsz]; exact h2
    · rw [hnx]
      exact ih (fun b hb => hm b (List.mem_cons_of_mem o hb))

theorem blocksFrom_length {m : Mem} {cur : Nat} {l : List Nat}
    (h : BlocksFrom m cur l) : cur + HDR * l.length ≤ HEAP_SIZE := by
  induction h with
  | base o h1 h2 =>
    simp only [List.length_singleton, HDR, HEAP_SIZE] at *
    omega
  | cons o l h1 h2 hsub ih =>
    simp only [List.length_cons, HDR, HEAP_SIZE] at *
    omega

theorem blocksFrom_length_lt {m : Mem} {cur : Nat} {l : List Nat}
    (h : BlocksFrom m cur l) : l.length < 128 := by
  have := blocksFrom_length h
  simp only [HDR, HEAP_SIZE] at this
  omega

theorem blocksFrom_suffix_aux {m : Mem} {cur b : Nat} {L : List Nat}
    (h : BlocksFrom m cur L) :
    ∀ {l₁ l₂ : List Nat}, L = l₁ ++ b :: l₂ → BlocksFrom m b (b :: l₂) := by
  induction h with
  | base o h1 h2 =>
    intro l₁ l₂ hL
    cases l₁ with
    | nil =>
      simp only [List.nil_append, List.cons.injEq] at hL
      obtain ⟨rfl, rfl⟩ := hL
      exact .base o h1 h2
    | cons a l₁ =>
      simp only [List.cons_append, List.cons.injEq] at hL
      exact absurd hL.2 (by simp)
  | cons o l h1 h2 hsub ih =>
    intro l₁ l₂ hL
    cases l₁ with
    | nil =>
      simp only [List.nil_append, List.cons.injEq] at hL
      obtain ⟨rfl, rfl⟩ := hL
      exact .cons o l h1 h2 hsub
    | cons a l₁ =>
      simp only [List.cons_append, List.cons.injEq] at hL
      exact ih hL.2

theorem blocksFrom_suffix {m : Mem} {cur b : Nat} {l₁ l₂ : List Nat}
    (h : BlocksFrom m cur (l₁ ++ b :: l₂)) : BlocksFrom m b (b :: l₂) :=
  blocksFrom_suffix_aux h rfl

theorem chain_of_blocksFrom {m : Mem} {cur : Nat} {l : List Nat} {fuel : Nat}
    (h : BlocksFrom m cur l) (hf : l.length < fuel) :
    chain m cur fuel = some l := by
  induction h generalizing fuel with
  | base o h1 h2 =>
    cases fuel with
    | zero => simp at hf
    | succ fuel => simp [chain, h1]
  | cons o l h1 h2 hsub ih =>
    cases fuel with
    | zero => simp at hf
    | succ fuel =>
      simp only [chain, if_neg h1]
      rw [ih (by simp at hf; omega)]
      rfl

theorem blocksFrom_terminal {m : Mem} {cur : Nat} {l : List Nat}
    (h : BlocksFrom m cur l) :
    ∀ b ∈ l, next m b = 0 → b + HDR + size m b = HEAP_SIZE := by
  induction h with
  | base o h1 h2 =>
    intro b hb _
    simp only [List.mem_singleton] at hb
    subst hb
    exact h2
  | cons o l h1 h2 hsub ih =>
    intro b hb hb0
    rcases List.mem_cons.mp hb with hb | hb
    · subst hb
      exact absurd hb0 h1
    · exact ih b hb hb0

theorem blocksFrom_chain' {m : Mem} {cur : Nat} {l : List Nat}
    (h : BlocksFrom m cur l) :
    l.Chain' (fun a b => next m a = b ∧ a + HDR + size m a = b) := by
  induction h with
  | base o h1 h2 => simp
  | cons o l h1 h2 hsub ih =>
    obtain ⟨l', rfl⟩ := blocksFrom_head hsub
    exact List.Chain'.cons ⟨h2.symm ▸ rfl, by omega⟩ ih

end V2

namespace V2

theorem allocAt_split {m : Mem} {cur sz : Nat} (hs : sz ≤ size m cur)
    (hend : cur + HDR + size m cur ≤ HEAP_SIZE) (h255 : sz < 256)
    (hnx : next m cur < 256) (hsplit : HDR < size m cur - sz) :
    size (allocAt m cur sz) cur = sz ∧
    is_free (allocAt m cur sz) cur = 0 ∧
    next (allocAt m cur sz) cur = cur + HDR + sz ∧
    size (allocAt m cur sz) (cur + HDR + sz) = size m cur - sz - HDR ∧
    is_free (allocAt m cur sz) (cur + HDR + sz) = 1 ∧
    next (allocAt m cur sz) (cur + HDR + sz) = next m cur ∧
    ∀ i, (i < cur ∨ (cur + 2 < i ∧ i < cur + HDR + sz) ∨ cur + HDR + sz + 2 < i) →
      allocAt m cur sz i = m i := by
  simp only [allocAt]
  rw [if_pos hsplit]
  refine ⟨?_, ?_, ?_, ?_, ?_, ?_, ?_⟩
  · simp only [size, is_free, next, setSize, setFree, setNext, wr, HDR, HEAP_SIZE] at *
    split_ifs <;> first | rfl | omega
  · simp only [size, is_free, next, setSize, setFree, setNext, wr, HDR, HEAP_SIZE] at *
    split_ifs <;> first | rfl | omega
  · simp only [size, is_free, next, setSize, setFree, setNext, wr, HDR, HEAP_SIZE] at *
    split_ifs <;> first | rfl | omega
  · simp only [size, is_free, next, setSize, setFree, setNext, wr, HDR, HEAP_SIZE] at *
    split_ifs <;> first | rfl | omega
  · simp only [size, is_free, next, setSize, setFree, setNext, wr, HDR, HEAP_SIZE] at *
    split_ifs <;> first | rfl | omega
  · simp only [size, is_free, next, setSize, setFree, setNext, wr, HDR, HEAP_SIZE] at *
    split_ifs <;> first | rfl | omega
  · intro i hi
    simp only [size, is_free, next, setSize, setFree, setNext, wr, HDR, HEAP_SIZE] at *
    split_ifs <;> first | rfl | omega

theorem allocAt_nosplit {m : Mem} {cur sz : Nat}
    (hnosplit : ¬ HDR < size m cur - sz) :
    is_free (allocAt m cur sz) cur = 0 ∧
    ∀ i, i ≠ cur + 1 → allocAt m cur sz i = m i := by
  simp only [allocAt]
  rw [if_neg hnosplit]
  constructor
  · simp [is_free, setFree, wr]
  · intro i hi
    simp only [setFree, wr]
    rw [if_neg hi]

theorem malloc_loop_spec {m : Mem} {cur : Nat} {l : List Nat}
    (h : BlocksFrom m cur l) {fuel : Nat} (hf : l.length < fuel) (sz : Nat) :
    malloc_loop m sz cur fuel =
      some ((firstFitIn m sz l).elim (m, none)
        (fun o => (allocAt m o sz, some (o + HDR)))) := by
  induction h generalizing fuel with
  | base o h1 h2 =>
    cases fuel with
    | zero => simp at hf
    | succ fuel =>
      have ho : o < HEAP_SIZE := by
        simp only [HEAP_SIZE, HDR] at *
        omega
      simp only [malloc_loop, if_pos ho]
      by_cases hfit : is_free m o ≠ 0 ∧ sz ≤ size m o
      · rw [if_pos hfit]
        simp only [firstFitIn, if_pos hfit, Option.elim]
      · rw [if_neg hfit, if_pos h1]
        simp only [firstFitIn, if_neg hfit, Option.elim]
  | cons o l h1 h2 hsub ih =>
    cases fuel with
    | zero => simp at hf
    | succ fuel =>
      have hend := blocksFrom_end_le hsub
      have ho : o < HEAP_SIZE := by
        simp only [HEAP_SIZE, HDR] at *
        omega
      simp only [malloc_loop, if_pos ho]
      by_cases hfit : is_free m o ≠ 0 ∧ sz ≤ size m o
      · rw [if_pos hfit]
        simp only [firstFitIn, if_pos hfit, Option.elim]
      · rw [if_neg hfit, if_neg h1]
        rw [ih (by simp only [List.length_cons] at hf; omega)]
        simp only [firstFitIn, if_neg hfit]

theorem my_malloc_eq {m : Mem} {l : List Nat} (h : BlocksFrom m 0 l) (sz : Nat) :
    my_malloc m sz =
      (firstFitIn m (sz % 256) l).elim (m, none)
        (fun o => (allocAt m o (sz % 256), some (o + HDR))) := by
  have hml := malloc_loop_spec h (blocksFrom_length_lt h) (sz % 256)
  simp [my_malloc, free_list, hml]

theorem firstFitIn_decomp {m : Mem} {sz o : Nat} {l : List Nat}
    (h : firstFitIn m sz l = some o) :
    ∃ l₁ l₂, l = l₁ ++ o :: l₂ ∧
      (∀ b ∈ l₁, ¬(is_free m b ≠ 0 ∧ sz ≤ size m b)) ∧
      (is_free m o ≠ 0 ∧ sz ≤ size m o) := by
  induction l with
  | nil => simp [firstFitIn] at h
  | cons a l ih =>
    by_cases hfit : is_free m a ≠ 0 ∧ sz ≤ size m a
    · simp only [firstFitIn, if_pos hfit, Option.some.injEq] at h
      subst h
      exact ⟨[], l, rfl, by simp, hfit⟩
    · simp only [firstFitIn, if_neg hfit] at h
      obtain ⟨l₁, l₂, rfl, h1, h2⟩ := ih h
      refine ⟨a :: l₁, l₂, rfl, ?_, h2⟩
      intro b hb
      rcases List.mem_cons.mp hb with rfl | hb
      · exact hfit
      · exact h1 b hb

theorem firstFitIn_of {m : Mem} {sz o : Nat} {l₁ l₂ : List Nat}
    (h1 : ∀ b ∈ l₁, ¬(is_free m b ≠ 0 ∧ sz ≤ size m b))
    (h2 : is_free m o ≠ 0 ∧ sz ≤ size m o) :
    firstFitIn m sz (l₁ ++ o :: l₂) = some o := by
  induction l₁ with
  | nil => simp [firstFitIn, if_pos h2]
  | cons a l₁ ih =>
    have ha := h1 a (List.mem_cons_self a l₁)
    simp only [List.cons_append, firstFitIn, if_neg ha]
    exact ih (fun b hb => h1 b (List.mem_cons_of_mem a hb))

theorem firstFitIn_congr {m m' : Mem} {sz : Nat} {l : List Nat}
    (hm : ∀ b ∈ l, is_free m' b = is_free m b ∧ size m' b = size m b) :
    firstFitIn m' sz l = firstFitIn m sz l := by
  induction l with
  | nil => rfl
  | cons a l ih =>
    have ha := hm a (List.mem_cons_self a l)
    simp only [firstFitIn, ha.1, ha.2]
    rw [ih (fun b hb => hm b (List.mem_cons_of_mem a hb))]

end V2

namespace V2

theorem blocksFrom_next_lt {m : Mem} {o : Nat} {l : List Nat}
    (h : BlocksFrom m o l) : next m o < 256 := by
  cases h with
  | base o h1 h2 => omega
  | cons o l h1 h2 hsub =>
    have h3 := blocksFrom_end_le hsub
    have hH : HEAP_SIZE = 128 := rfl
    omega

theorem blocksFrom_cons_inv {m : Mem} {cur a : Nat} {l : List Nat}
    (h : BlocksFrom m cur (a :: l)) (hne : l ≠ []) :
    a = cur ∧ next m cur ≠ 0 ∧ next m cur = cur + HDR + size m cur ∧
      BlocksFrom m (next m cur) l := by
  cases h with
  | base o h1 h2 => exact absurd rfl hne
  | cons o l h1 h2 hsub => exact ⟨rfl, h1, h2, hsub⟩

theorem allocAt_frame (m : Mem) (o sz : Nat) (hwrap : o + HDR + sz < 256) :
    ∀ i, i < o → allocAt m o sz i = m i := by
  intro i hi
  simp only [HDR] at hwrap
  simp only [allocAt]
  split_ifs with hsplit <;>
    simp only [setSize, setFree, setNext, size, is_free, next, wr, HDR] <;>
    split_ifs <;> first | rfl | omega

theorem blocksFrom_allocAt_head {m : Mem} {o sz : Nat} {l₂ : List Nat}
    (h : BlocksFrom m o (o :: l₂)) (hs : sz ≤ size m o) (h255 : sz < 256) :
    BlocksFrom (allocAt m o sz) o
      (o :: (if HDR < size m o - sz then (o + HDR + sz) :: l₂ else l₂)) := by
  have hD : HDR = 3 := rfl
  have hH : HEAP_SIZE = 128 := rfl
  have hend : o + HDR + size m o ≤ HEAP_SIZE := blocksFrom_end_le h
  have hnx : next m o < 256 := blocksFrom_next_lt h
  by_cases hsplit : HDR < size m o - sz
  · rw [if_pos hsplit]
    obtain ⟨A1, A2, A3, A4, A5, A6, A7⟩ := allocAt_split hs hend h255 hnx hsplit
    cases h with
    | base _ h1 h2 =>
      refine .cons o [o + HDR + sz] ?_ ?_ ?_
      · rw [A3]; omega
      · rw [A3, A1]
      · rw [A3]
        refine .base (o + HDR + sz) ?_ ?_
        · rw [A6, h1]
        · rw [A4]; omega
    | cons _ _ h1 h2 hsub =>
      refine .cons o ((o + HDR + sz) :: l₂) ?_ ?_ ?_
      · rw [A3]; omega
      · rw [A3, A1]
      · rw [A3]
        refine .cons (o + HDR + sz) l₂ ?_ ?_ ?_
        · rw [A6]; exact h1
        · rw [A6, A4, h2]; omega
        · rw [A6]
          refine blocksFrom_congr hsub ?_
          intro b hb
          have hbge := blocksFrom_mem_ge hsub b hb
          exact ⟨A7 b (by omega), A7 (b + 2) (by omega)⟩
  · rw [if_neg hsplit]
    obtain ⟨A1, A2⟩ := allocAt_nosplit hsplit
    have hsz : size (allocAt m o sz) o = size m o := A2 o (by omega)
    have hnxeq : next (allocAt m o sz) o = next m o := A2 (o + 2) (by omega)
    cases h with
    | base _ h1 h2 =>
      refine .base o ?_ ?_
      · rw [hnxeq, h1]
      · rw [hsz]; exact h2
    | cons _ _ h1 h2 hsub =>
      refine .cons o l₂ ?_ ?_ ?_
      · rw [hnxeq]; exact h1
      · rw [hnxeq, hsz]; exact h2
      · rw [hnxeq]
        refine blocksFrom_congr hsub ?_
        intro b hb
        have hbge := blocksFrom_mem_ge hsub b hb
        exact ⟨A2 b (by omega), A2 (b + 2) (by omega)⟩

theorem blocksFrom_allocAt {m : Mem} {cur o sz : Nat} {l₁ l₂ : List Nat}
    (h : BlocksFrom m cur (l₁ ++ o :: l₂)) (hs : sz ≤ size m o)
    (h255 : sz < 256) :
    BlocksFrom (allocAt m o sz) cur
      (l₁ ++ o :: (if HDR < size m o - sz then (o + HDR + sz) :: l₂ else l₂)) := by
  have hD : HDR = 3 := rfl
  have hH : HEAP_SIZE = 128 := rfl
  induction l₁ generalizing cur with
  | nil =>
    simp only [List.nil_append] at h ⊢
    obtain ⟨l', hl⟩ := blocksFrom_head h
    obtain ⟨rfl, rfl⟩ : o = cur ∧ l₂ = l' := by
      simp only [List.cons.injEq] at hl
      exact hl
    exact blocksFrom_allocAt_head h hs h255
  | cons a l₁ ih =>
    obtain ⟨heq, h1, h2, hsub⟩ := blocksFrom_cons_inv h (by simp)
    rw [heq]
    have hoin : o ∈ l₁ ++ o :: l₂ := by simp
    have hole := blocksFrom_mem_ge hsub o hoin
    have hS := blocksFrom_suffix hsub
    have hend := blocksFrom_end_le hS
    have hwrap : o + HDR + sz < 256 := by omega
    have hfr := allocAt_frame m o sz hwrap
    have hnxeq : next (allocAt m o sz) cur = next m cur :=
      hfr (cur + 2) (by omega)
    have hszeq : size (allocAt m o sz) cur = size m cur :=
      hfr cur (by omega)
    refine .cons cur _ ?_ ?_ ?_
    · rw [hnxeq]; exact h1
    · rw [hnxeq, hszeq]; exact h2
    · rw [hnxeq]
      exact ih hsub

end V2

namespace V2

theorem my_free_payload (m : Mem) {o : Nat} (ho : o < 256) :
    my_free m (some (o + HDR)) = setFree m o 1 := by
  have hD : HDR = 3 := rfl
  have h : (o + HDR + 256 - HDR) % 256 = o := by omega
  simp only [my_free, h]

theorem blocksFrom_setFree {m : Mem} {o v : Nat} {l : List Nat}
    (h : BlocksFrom m 0 l) (ho : o ∈ l) :
    BlocksFrom (setFree m o v) 0 l := by
  have hD : HDR = 3 := rfl
  refine blocksFrom_congr h ?_
  intro b hb
  constructor
  · refine wr_ne m v ?_
    by_cases hbo : b = o
    · omega
    · rcases blocksFrom_separated h hb ho hbo with hsep | hsep <;> omega
  · refine wr_ne m v ?_
    by_cases hbo : b = o
    · omega
    · rcases blocksFrom_separated h hb ho hbo with hsep | hsep <;> omega

theorem validPtr_some {m : Mem} {q : Nat} {l : List Nat}
    (h : BlocksFrom m 0 l) (hv : validPtr m (some q) = true) :
    ∃ o ∈ l, q = o + HDR := by
  have hchain := chain_of_blocksFrom h (blocksFrom_length_lt h)
  simp only [validPtr, free_list] at hv
  rw [hchain] at hv
  simp only [List.any_eq_true, decide_eq_true_eq] at hv
  obtain ⟨o, ho, rfl⟩ := hv
  exact ⟨o, ho, rfl⟩

theorem blocksFrom_my_free {m : Mem} {p : Option Nat} {l : List Nat}
    (h : BlocksFrom m 0 l) (hv : validPtr m p = true) :
    BlocksFrom (my_free m p) 0 l := by
  cases p with
  | none => exact h
  | some q =>
    obtain ⟨o, ho, rfl⟩ := validPtr_some h hv
    have hend := blocksFrom_mem_end_le h o ho
    have hH : HEAP_SIZE = 128 := rfl
    have hD : HDR = 3 := rfl
    rw [my_free_payload m (by omega)]
    exact blocksFrom_setFree h ho


theorem merge_write (m : Mem) (blk : Nat) {v w : Nat} (hv : v < 256)
    (hw : w < 256) :
    size (setNext (setSize m blk v) blk w) blk = v ∧
    next (setNext (setSize m blk v) blk w) blk = w ∧
    ∀ i, i ≠ blk → i ≠ blk + 2 → setNext (setSize m blk v) blk w i = m i := by
  refine ⟨?_, ?_, ?_⟩
  · simp only [size, setSize, setNext, wr]
    split_ifs <;> omega
  · simp only [next, setSize, setNext, wr]
    split_ifs <;> omega
  · intro i hi1 hi2
    simp only [setSize, setNext, wr]
    split_ifs <;> first | rfl | omega

theorem coalesce_loop_spec :
    ∀ (fuel : Nat) (m : Mem) (blk : Nat) (l : List Nat),
      BlocksFrom m blk (blk :: l) → (blk :: l).length < fuel →
      ∃ m' l', coalesce_loop m blk fuel = some m' ∧
        BlocksFrom m' blk (blk :: l') ∧ ∀ i, i < blk → m' i = m i := by
  intro fuel
  induction fuel with
  | zero =>
    intro m blk l h hf
    simp at hf
  | succ fuel ih =>
    intro m blk l h hf
    have hD : HDR = 3 := rfl
    have hH : HEAP_SIZE = 128 := rfl
    by_cases h0 : next m blk = 0
    · exact ⟨m, l, by simp [coalesce_loop, h0], h, fun i _ => rfl⟩
    · obtain ⟨h1, h2, hsub⟩ : next m blk ≠ 0 ∧
          next m blk = blk + HDR + size m blk ∧
          BlocksFrom m (next m blk) l := by
        cases h with
        | base _ hb1 hb2 => exact absurd hb1 h0
        | cons _ _ hc1 hc2 hcsub => exact ⟨hc1, hc2, hcsub⟩
      obtain ⟨rest, rfl⟩ := blocksFrom_head hsub
      have hendnb := blocksFrom_end_le hsub
      have hnxnb := blocksFrom_next_lt hsub
      simp only [coalesce_loop, if_neg h0]
      by_cases hm : is_free m blk ≠ 0 ∧ is_free m (next m blk) ≠ 0
      · rw [if_pos hm]
        have hnx1 : next (setSize m blk
            (size m blk + HDR + size m (next m blk))) (next m blk)
            = next m (next m blk) := by
          show wr m blk (size m blk + HDR + size m (next m blk))
            (next m blk + 2) = m (next m blk + 2)
          exact wr_ne m _ (by omega)
        rw [hnx1]
        have hv : size m blk + HDR + size m (next m blk) < 256 := by omega
        obtain ⟨A1, A2, A3⟩ := merge_write m blk hv hnxnb
        have hB2 : BlocksFrom (setNext (setSize m blk
            (size m blk + HDR + size m (next m blk))) blk
            (next m (next m blk))) blk (blk :: rest) := by
          cases hsub with
          | base _ hs1 hs2 =>
            refine .base blk ?_ ?_
            · rw [A2, hs1]
            · rw [A1]; omega
          | cons _ _ hs1 hs2 hssub =>
            refine .cons blk rest ?_ ?_ ?_
            · rw [A2]; exact hs1
            · rw [A2, A1]; omega
            · rw [A2]
              refine blocksFrom_congr hssub ?_
              intro b hb
              have hbge := blocksFrom_mem_ge hssub b hb
              exact ⟨A3 b (by omega) (by omega), A3 (b + 2) (by omega) (by omega)⟩
        obtain ⟨m', l', hcl, hB', hfr⟩ := ih _ blk rest hB2 (by
          simp only [List.length_cons] at hf ⊢
          omega)
        refine ⟨m', l', hcl, hB', ?_⟩
        intro i hi
        rw [hfr i hi]
        exact A3 i (by omega) (by omega)
      · rw [if_neg hm]
        obtain ⟨m', l', hcl, hB', hfr⟩ := ih m (next m blk) rest hsub (by
          simp only [List.length_cons] at hf ⊢
          omega)
        refine ⟨m', next m blk :: l', hcl, ?_, ?_⟩
        · have hnxeq : next m' blk = next m blk := hfr (blk + 2) (by omega)
          have hszeq : size m' blk = size m blk := hfr blk (by omega)
          refine .cons blk (next m blk :: l') ?_ ?_ ?_
          · rw [hnxeq]; exact h1
          · rw [hnxeq, hszeq]; exact h2
          · rw [hnxeq]; exact hB'
        · intro i hi
          exact hfr i (by omega)

theorem print_loop_isSome {m : Mem} {cur : Nat} {l : List Nat}
    (h : BlocksFrom m cur l) {fuel : Nat} (hf : l.length < fuel) :
    (print_loop m cur fuel).isSome := by
  induction h generalizing fuel with
  | base o h1 h2 =>
    cases fuel with
    | zero => simp at hf
    | succ fuel =>
      have ho : o < HEAP_SIZE := by
        have hH : HEAP_SIZE = 128 := rfl
        have hD : HDR = 3 := rfl
        omega
      simp [print_loop, if_pos ho, h1]
  | cons o l h1 h2 hsub ih =>
    cases fuel with
    | zero => simp at hf
    | succ fuel =>
      have hend := blocksFrom_end_le hsub
      have ho : o < HEAP_SIZE := by
        have hH : HEAP_SIZE = 128 := rfl
        have hD : HDR = 3 := rfl
        omega
      have hrec : (print_loop m (next m o) fuel).isSome := ih (by
        simp only [List.length_cons] at hf
        omega)
      obtain ⟨x, hx⟩ := Option.isSome_iff_exists.mp hrec
      simp [print_loop, if_pos ho, if_neg h1, hx]

theorem reachable_wf {m : Mem} (h : Reachable m) : ∃ l, BlocksFrom m 0 l := by
  induction h with
  | init =>
    refine ⟨[0], .base 0 ?_ ?_⟩ <;> decide
  | step_malloc m n hr ih =>
    obtain ⟨l, hl⟩ := ih
    rw [my_malloc_eq hl n]
    cases hff : firstFitIn m (n % 256) l with
    | none => exact ⟨l, by simpa using hl⟩
    | some o =>
      obtain ⟨l₁, l₂, rfl, hpre, hfit⟩ := firstFitIn_decomp hff
      exact ⟨_, by
        simpa using blocksFrom_allocAt hl hfit.2 (Nat.mod_lt n (by omega))⟩
  | step_free m p hr hv ih =>
    obtain ⟨l, hl⟩ := ih
    exact ⟨l, blocksFrom_my_free hl hv⟩
  | step_coalesce m hr ih =>
    obtain ⟨l, hl⟩ := ih
    obtain ⟨rest, rfl⟩ := blocksFrom_head hl
    obtain ⟨m', l', hcl, hB, _⟩ := coalesce_loop_spec 128 m 0 rest hl (by
      have := blocksFrom_length_lt hl
      omega)
    refine ⟨0 :: l', ?_⟩
    simpa [coalesce_memory, free_list, hcl] using hB

end V2

namespace V2

theorem blocksFrom_prefix_le {m : Mem} {cur o : Nat} {l₁ l₂ : List Nat}
    (h : BlocksFrom m cur (l₁ ++ o :: l₂)) : ∀ b ∈ l₁, b + HDR ≤ o := by
  induction l₁ generalizing cur with
  | nil => simp
  | cons a l₁ ih =>
    obtain ⟨heq, h1, h2, hsub⟩ := blocksFrom_cons_inv h (by simp)
    intro b hb
    rcases List.mem_cons.mp hb with rfl | hb
    · have hoin : o ∈ l₁ ++ o :: l₂ := by simp
      have := blocksFrom_mem_ge hsub o hoin
      have hD : HDR = 3 := rfl
      omega
    · exact ih hsub b hb

theorem roundtrip_aux {m : Mem} {l : List Nat} (hl : BlocksFrom m 0 l)
    {n : Nat} (h255 : n < 256) {a : Nat}
    (hsucc : (my_malloc m n).2 = some a) :
    (my_malloc (my_free (my_malloc m n).1 (some a)) n).2 = some a := by
  have hD : HDR = 3 := rfl
  have hH : HEAP_SIZE = 128 := rfl
  have hmod : n % 256 = n := Nat.mod_eq_of_lt h255
  have hmm := my_malloc_eq hl n
  rw [hmod] at hmm
  cases hff : firstFitIn m n l with
  | none =>
    rw [hmm, hff] at hsucc
    simp at hsucc
  | some o =>
    rw [hmm, hff] at hsucc
    simp only [Option.elim] at hsucc
    obtain rfl : o + HDR = a := by
      simpa using hsucc
    obtain ⟨l₁, l₂, rfl, hpre, hfit⟩ := firstFitIn_decomp hff
    have hS := blocksFrom_suffix hl
    have hend := blocksFrom_end_le hS
    have hnx := blocksFrom_next_lt hS
    have ho256 : o < 256 := by omega
    have hB1 : BlocksFrom (allocAt m o n) 0
        (l₁ ++ o :: (if HDR < size m o - n then (o + HDR + n) :: l₂ else l₂)) :=
      blocksFrom_allocAt hl hfit.2 h255
    have hm1 : (my_malloc m n).1 = allocAt m o n := by
      rw [hmm, hff]
      rfl
    rw [hm1, my_free_payload _ ho256]
    have hB2 : BlocksFrom (setFree (allocAt m o n) o 1) 0
        (l₁ ++ o :: (if HDR < size m o - n then (o + HDR + n) :: l₂ else l₂)) :=
      blocksFrom_setFree hB1 (by simp)
    have hmm2 := my_malloc_eq hB2 n
    rw [hmod] at hmm2
    -- the prefix blocks are bytewise unchanged
    have hprelt := blocksFrom_prefix_le hl
    have hwrap : o + HDR + n < 256 := by omega
    have hfr := allocAt_frame m o n hwrap
    have hunch : ∀ b ∈ l₁,
        is_free (setFree (allocAt m o n) o 1) b = is_free m b ∧
        size (setFree (allocAt m o n) o 1) b = size m b := by
      intro b hb
      have hble := hprelt b hb
      constructor
      · show wr (allocAt m o n) (o + 1) 1 (b + 1) = m (b + 1)
        rw [wr_ne _ _ (by omega)]
        exact hfr (b + 1) (by omega)
      · show wr (allocAt m o n) (o + 1) 1 b = m b
        rw [wr_ne _ _ (by omega)]
        exact hfr b (by omega)
    -- the selected block is free again and still large enough
    have hfree2 : is_free (setFree (allocAt m o n) o 1) o = 1 := by
      show wr (allocAt m o n) (o + 1) 1 (o + 1) = 1
      rw [wr_eq]
    have hsz2 : n ≤ size (setFree (allocAt m o n) o 1) o := by
      have hso : size (setFree (allocAt m o n) o 1) o
          = size (allocAt m o n) o := by
        show wr (allocAt m o n) (o + 1) 1 o = allocAt m o n o
        rw [wr_ne _ _ (by omega)]
      rw [hso]
      by_cases hsplit : HDR < size m o - n
      · obtain ⟨A1, _, _, _, _, _, _⟩ :=
          allocAt_split hfit.2 hend h255 hnx hsplit
        rw [A1]
      · obtain ⟨_, A2⟩ := allocAt_nosplit hsplit
        have : size (allocAt m o n) o = size m o := A2 o (by omega)
        rw [this]
        exact hfit.2
    have hff2 : firstFitIn (setFree (allocAt m o n) o 1) n
        (l₁ ++ o :: (if HDR < size m o - n then (o + HDR + n) :: l₂ else l₂))
        = some o := by
      refine firstFitIn_of ?_ ⟨by rw [hfree2]; omega, hsz2⟩
      intro b hb
      rw [(hunch b hb).1, (hunch b hb).2]
      exact hpre b hb
    rw [hmm2, hff2]
    simp [Option.elim]

end V2

/-
Lemmas for the v3 (reference-counted) embedding.
-/

namespace V3

theorem wr3_ne (m : Mem) {i j : Nat} (v : Nat) (h : j ≠ i) : wr m i v j = m j := by
  simp [wr, h]

theorem wr3_eq (m : Mem) (i v : Nat) : wr m i v i = v % 256 := by
  simp [wr]

theorem blockOffset_payload {o : Nat} (ho : o < 256) :
    blockOffset (o + HDR) = o := by
  have hD : HDR = 4 := rfl
  simp only [blockOffset]
  omega

/-- Behavior of v3 my_free on the payload address of a currently
allocated block: the block is marked free, exactly one forward merge
with the list-next neighbor happens when that neighbor exists and is
free (absorbing its header and inheriting its next), nothing else
happens otherwise, and no byte outside the released header is written
(in particular no backward merge). -/
theorem my_free_spec (m : Mem) {o : Nat} (ho : o < 256)
    (halloc : is_free m o = 0)
    (hnb : next m o = 0 ∨ o + HDR ≤ next m o)
    (hsum : size m o + HDR + size m (next m o) < 256)
    (hnx : next m (next m o) < 256) :
    is_free (my_free m (some (o + HDR))) o = 1 ∧
    (next m o ≠ 0 → is_free m (next m o) ≠ 0 →
      size (my_free m (some (o + HDR))) o
          = size m o + HDR + size m (next m o) ∧
      next (my_free m (some (o + HDR))) o = next m (next m o)) ∧
    ((next m o = 0 ∨ is_free m (next m o) = 0) →
      ∀ i, i ≠ o + 1 → my_free m (some (o + HDR)) i = m i) ∧
    (∀ i, i ≠ o → i ≠ o + 1 → i ≠ o + 2 → my_free m (some (o + HDR)) i = m i) := by
  have hD : HDR = 4 := rfl
  have hbo := blockOffset_payload ho
  simp only [my_free]
  rw [hbo, if_pos halloc]
  have e1 : next (setFree m o 1) o = next m o := by
    show wr m (o + 1) 1 (o + 2) = m (o + 2)
    exact wr3_ne m _ (by omega)
  rw [e1]
  by_cases hn0 : next m o = 0
  · rw [if_neg (by simp [hn0])]
    refine ⟨?_, ?_, ?_, ?_⟩
    · show wr m (o + 1) 1 (o + 1) = 1
      rw [wr3_eq]
    · intro hne _
      exact absurd hn0 hne
    · intro _ i hi
      exact wr3_ne m _ hi
    · intro i _ hi _
      exact wr3_ne m _ hi
  · rw [if_pos hn0]
    have hge : o + HDR ≤ next m o := by
      rcases hnb with hnb | hnb
      · exact absurd hnb hn0
      · exact hnb
    have e2 : is_free (setFree m o 1) (next m o) = is_free m (next m o) := by
      show wr m (o + 1) 1 (next m o + 1) = m (next m o + 1)
      exact wr3_ne m _ (by omega)
    rw [e2]
    by_cases hfree : is_free m (next m o) ≠ 0
    · rw [if_pos hfree]
      have e3 : size (setFree m o 1) o = size m o := by
        show wr m (o + 1) 1 o = m o
        exact wr3_ne m _ (by omega)
      have e4 : size (setFree m o 1) (next m o) = size m (next m o) := by
        show wr m (o + 1) 1 (next m o) = m (next m o)
        exact wr3_ne m _ (by omega)
      rw [e3, e4]
      have e5 : next (setSize (setFree m o 1) o
          (size m o + HDR + size m (next m o))) (next m o)
          = next m (next m o) := by
        show wr (wr m (o + 1) 1) o (size m o + HDR + size m (next m o))
          (next m o + 2) = m (next m o + 2)
        rw [wr3_ne _ _ (by omega), wr3_ne m _ (by omega)]
      rw [e5]
      refine ⟨?_, ?_, ?_, ?_⟩
      · show wr (wr (wr m (o + 1) 1) o
            (size m o + HDR + size m (next m o))) (o + 2)
            (next m (next m o)) (o + 1) = 1
        rw [wr3_ne _ _ (by omega), wr3_ne _ _ (by omega), wr3_eq]
      · intro _ _
        constructor
        · show wr (wr (wr m (o + 1) 1) o
              (size m o + HDR + size m (next m o))) (o + 2)
              (next m (next m o)) o
              = size m o + HDR + size m (next m o)
          rw [wr3_ne _ _ (by omega), wr3_eq]
          omega
        · show wr (wr (wr m (o + 1) 1) o
              (size m o + HDR + size m (next m o))) (o + 2)
              (next m (next m o)) (o + 2)
              = next m (next m o)
          rw [wr3_eq]
          omega
      · intro hcon
        rcases hcon with hcon | hcon
        · exact absurd hcon hn0
        · exact absurd hcon (by simpa using hfree)
      · intro i hi0 hi1 hi2
        show wr (wr (wr m (o + 1) 1) o
            (size m o + HDR + size m (next m o))) (o + 2)
            (next m (next m o)) i = m i
        rw [wr3_ne _ _ hi2, wr3_ne _ _ hi0, wr3_ne _ _ hi1]
    · rw [if_neg hfree]
      refine ⟨?_, ?_, ?_, ?_⟩
      · show wr m (o + 1) 1 (o + 1) = 1
        rw [wr3_eq]
      · intro _ hf
        exact absurd hf (by simpa using hfree)
      · intro _ i hi
        exact wr3_ne m _ hi
      · intro i _ hi _
        exact wr3_ne m _ hi

theorem ref_count_my_free (m : Mem) (p : Option Nat) {o : Nat}
    (hne3 : ∀ q, p = some q → blockOffset q ≠ o + 3 ∧
      blockOffset q + 1 ≠ o + 3 ∧ blockOffset q + 2 ≠ o + 3) :
    ref_count (my_free m p) o = ref_count m o := by
  cases p with
  | none => rfl
  | some q =>
    obtain ⟨hq0, hq1, hq2⟩ := hne3 q rfl
    simp only [my_free]
    by_cases hfr : is_free m (blockOffset q) = 0
    · rw [if_pos hfr]
      show (if next (setFree m (blockOffset q) 1) (blockOffset q) ≠ 0
          then _ else _ : Mem) (o + 3) = m (o + 3)
      split_ifs with hc1 hc2
      · show wr (wr (wr m _ 1) _ _) _ _ (o + 3) = m (o + 3)
        rw [wr3_ne _ _ (by omega), wr3_ne _ _ (by omega), wr3_ne _ _ (by omega)]
      · exact wr3_ne m _ (by omega)
      · exact wr3_ne m _ (by omega)
    · rw [if_neg hfr]

end V3

namespace V3

/-- Releasing a currently allocated block always sets its is_free flag,
whether or not a forward merge follows. -/
theorem my_free_marks (m : Mem) {o : Nat} (ho : o < 256)
    (halloc : is_free m o = 0) :
    is_free (my_free m (some (o + HDR))) o = 1 := by
  simp only [my_free]
  rw [blockOffset_payload ho, if_pos halloc]
  split_ifs <;>
    (simp only [is_free, setFree, setSize, setNext, wr]; split_ifs <;> omega)

/-- decrement_ref on a block whose count is already zero is a no-op. -/
theorem decrement_ref_zero (m : Mem) {o : Nat} (ho : o < 256)
    (h0 : ref_count m o = 0) : decrement_ref m (some (o + HDR)) = m := by
  simp only [decrement_ref]
  rw [blockOffset_payload ho, if_neg (by omega)]

end V3

namespace V1

theorem upd_ne (m : Mem) {o j : Nat} (h : BlockHeader) (hne : j ≠ o) :
    upd m o h j = m j := by
  simp [upd, hne]

theorem upd_eq (m : Mem) (o : Nat) (h : BlockHeader) : upd m o h o = h := by
  simp [upd]

/-- my_free of 1_heap.c sets the is_free field of the addressed header
and changes nothing else: no coalescing of any kind. -/
theorem my_free_fields (m : Mem) (q : Nat) :
    ((my_free m (some q)) (q - HDR)).is_free = 1 ∧
    ((my_free m (some q)) (q - HDR)).size = (m (q - HDR)).size ∧
    ((my_free m (some q)) (q - HDR)).next = (m (q - HDR)).next ∧
    ∀ j, j ≠ q - HDR → my_free m (some q) j = m j := by
  refine ⟨?_, ?_, ?_, ?_⟩
  · show (upd m (q - HDR) _ (q - HDR)).is_free = 1
    rw [upd_eq]
  · show (upd m (q - HDR) _ (q - HDR)).size = (m (q - HDR)).size
    rw [upd_eq]
  · show (upd m (q - HDR) _ (q - HDR)).next = (m (q - HDR)).next
    rw [upd_eq]
  · intro j hj
    show upd m (q - HDR) _ j = m j
    rw [upd_ne m _ hj]

end V1

/-
Structural lemmas for the v1 embedding.  The v1 header fields are
records, so there is no byte aliasing: a header write touches exactly
one arena offset.
-/

namespace V1

theorem blocks_head {m : Mem} {cur : Nat} {l : List Nat}
    (h : Blocks m cur l) : ∃ l', l = cur :: l' := by
  cases h with
  | base o _ _ => exact ⟨[], rfl⟩
  | cons o nx l _ _ _ => exact ⟨l, rfl⟩

theorem blocks_end_le {m : Mem} {cur : Nat} {l : List Nat}
    (h : Blocks m cur l) : cur + HDR + (m cur).size ≤ HEAP_SIZE := by
  induction h with
  | base o h1 h2 => omega
  | cons o nx l h1 h2 hsub ih => omega

theorem blocks_mem_ge {m : Mem} {cur : Nat} {l : List Nat}
    (h : Blocks m cur l) : ∀ b ∈ l, cur ≤ b := by
  induction h with
  | base o h1 h2 =>
    intro b hb
    simp only [List.mem_singleton] at hb
    omega
  | cons o nx l h1 h2 hsub ih =>
    intro b hb
    rcases List.mem_cons.mp hb with hb | hb
    · omega
    · have := ih b hb
      omega

theorem blocks_congr {m m' : Mem} {cur : Nat} {l : List Nat}
    (h : Blocks m cur l)
    (hm : ∀ b ∈ l, (m' b).size = (m b).size ∧ (m' b).next = (m b).next) :
    Blocks m' cur l := by
  induction h with
  | base o h1 h2 =>
    have ho := hm o (List.mem_singleton_self o)
    exact .base o (ho.2.symm ▸ h1) (ho.1.symm ▸ h2)
  | cons o nx l h1 h2 hsub ih =>
    have ho := hm o (List.mem_cons_self o l)
    refine .cons o nx l (ho.2.symm ▸ h1) (ho.1.symm ▸ h2) ?_
    exact ih (fun b hb => hm b (List.mem_cons_of_mem o hb))

theorem blocks_length {m : Mem} {cur : Nat} {l : List Nat}
    (h : Blocks m cur l) : cur + HDR * l.length ≤ HEAP_SIZE := by
  induction h with
  | base o h1 h2 =>
    simp only [List.length_singleton, HDR, HEAP_SIZE] at *
    omega
  | cons o nx l h1 h2 hsub ih =>
    simp only [List.length_cons, HDR, HEAP_SIZE] at *
    omega

theorem blocks_length_lt {m : Mem} {cur : Nat} {l : List Nat}
    (h : Blocks m cur l) : l.length < 128 := by
  have := blocks_length h
  simp only [HDR, HEAP_SIZE] at this
  omega

theorem blocks_cons_inv {m : Mem} {cur a : Nat} {l : List Nat}
    (h : Blocks m cur (a :: l)) (hne : l ≠ []) :
    a = cur ∧ ∃ nx, (m cur).next = some nx ∧
      nx = cur + HDR + (m cur).size ∧ Blocks m nx l := by
  cases h with
  | base o h1 h2 => exact absurd rfl hne
  | cons o nx l h1 h2 hsub => exact ⟨rfl, nx, h1, h2, hsub⟩

theorem blocks_prefix_le_v1 {m : Mem} {cur o : Nat} {l₁ l₂ : List Nat}
    (h : Blocks m cur (l₁ ++ o :: l₂)) : ∀ b ∈ l₁, b + HDR ≤ o := by
  induction l₁ generalizing cur with
  | nil => simp
  | cons a l₁ ih =>
    obtain ⟨heq, nx, h1, h2, hsub⟩ := blocks_cons_inv h (by simp)
    intro b hb
    rcases List.mem_cons.mp hb with rfl | hb
    · have hoin : o ∈ l₁ ++ o :: l₂ := by simp
      have := blocks_mem_ge hsub o hoin
      omega
    · exact ih hsub b hb

theorem alloc_frame_v1 (m : Mem) (o sz : Nat) :
    ∀ j, j ≠ o → j ≠ o + HDR + sz → allocAt m o sz j = m j := by
  intro j hj1 hj2
  simp only [allocAt]
  split_ifs with hsplit
  · rw [upd_ne _ _ hj1, upd_ne _ _ hj1, upd_ne _ _ hj2]
  · rw [upd_ne _ _ hj1]

theorem alloc_split_v1 {m : Mem} {cur sz : Nat}
    (hsplit : HDR < (m cur).size - sz) :
    (allocAt m cur sz cur).size = sz ∧
    (allocAt m cur sz cur).is_free = 0 ∧
    (allocAt m cur sz cur).next = some (cur + HDR + sz) ∧
    (allocAt m cur sz (cur + HDR + sz)).size = (m cur).size - sz - HDR ∧
    (allocAt m cur sz (cur + HDR + sz)).is_free = 1 ∧
    (allocAt m cur sz (cur + HDR + sz)).next = (m cur).next := by
  have hD : HDR = 24 := rfl
  have e1 : allocAt m cur sz cur = ⟨sz, 0, some (cur + HDR + sz)⟩ := by
    simp only [allocAt]
    rw [if_pos hsplit, upd_eq, upd_eq]
  have e2 : allocAt m cur sz (cur + HDR + sz)
      = ⟨(m cur).size - sz - HDR, 1, (m cur).next⟩ := by
    simp only [allocAt]
    rw [if_pos hsplit, upd_ne _ _ (by omega), upd_ne _ _ (by omega), upd_eq]
  rw [e1, e2]
  exact ⟨rfl, rfl, rfl, rfl, rfl, rfl⟩

theorem alloc_nosplit_v1 {m : Mem} {cur sz : Nat}
    (hnosplit : ¬ HDR < (m cur).size - sz) :
    (allocAt m cur sz cur).size = (m cur).size ∧
    (allocAt m cur sz cur).is_free = 0 ∧
    (allocAt m cur sz cur).next = (m cur).next ∧
    ∀ j, j ≠ cur → allocAt m cur sz j = m j := by
  have e1 : allocAt m cur sz cur = ⟨(m cur).size, 0, (m cur).next⟩ := by
    simp only [allocAt]
    rw [if_neg hnosplit, upd_eq]
  refine ⟨?_, ?_, ?_, ?_⟩
  · rw [e1]
  · rw [e1]
  · rw [e1]
  · intro j hj
    simp only [allocAt]
    rw [if_neg hnosplit, upd_ne _ _ hj]

theorem loop_spec_v1 {m : Mem} {cur : Nat} {l : List Nat}
    (h : Blocks m cur l) {fuel : Nat} (hf : l.length < fuel) (sz : Nat) :
    malloc_loop m sz (some cur) fuel =
      some ((firstFit m sz l).elim (m, none)
        (fun o => (allocAt m o sz, some (o + HDR)))) := by
  induction h generalizing fuel with
  | base o h1 h2 =>
    cases fuel with
    | zero => simp at hf
    | succ fuel =>
      simp only [malloc_loop]
      by_cases hfit : (m o).is_free ≠ 0 ∧ sz ≤ (m o).size
      · rw [if_pos hfit]
        simp only [firstFit, if_pos hfit, Option.elim]
      · rw [if_neg hfit, h1]
        cases fuel with
        | zero => simp at hf
        | succ fuel =>
          simp only [malloc_loop, firstFit, if_neg hfit, Option.elim]
  | cons o nx l h1 h2 hsub ih =>
    cases fuel with
    | zero => simp at hf
    | succ fuel =>
      simp only [malloc_loop]
      by_cases hfit : (m o).is_free ≠ 0 ∧ sz ≤ (m o).size
      · rw [if_pos hfit]
        simp only [firstFit, if_pos hfit, Option.elim]
      · rw [if_neg hfit, h1]
        rw [ih (by simp only [List.length_cons] at hf; omega)]
        simp only [firstFit, if_neg hfit]

theorem malloc_eq_v1 {m : Mem} {l : List Nat} (h : Blocks m 0 l) {n : Nat}
    (hn : n ≠ 0) :
    my_malloc m n = (firstFit m (ALIGN n) l).elim (m, none)
      (fun o => (allocAt m o (ALIGN n), some (o + HDR))) := by
  have hml := loop_spec_v1 h (blocks_length_lt h) (ALIGN n)
  simp [my_malloc, free_list, hn, hml]

theorem firstFit_decomp {m : Mem} {sz o : Nat} {l : List Nat}
    (h : firstFit m sz l = some o) :
    ∃ l₁ l₂, l = l₁ ++ o :: l₂ ∧
      (∀ b ∈ l₁, ¬((m b).is_free ≠ 0 ∧ sz ≤ (m b).size)) ∧
      ((m o).is_free ≠ 0 ∧ sz ≤ (m o).size) := by
  induction l with
  | nil => simp [firstFit] at h
  | cons a l ih =>
    by_cases hfit : (m a).is_free ≠ 0 ∧ sz ≤ (m a).size
    · simp only [firstFit, if_pos hfit, Option.some.injEq] at h
      subst h
      exact ⟨[], l, rfl, by simp, hfit⟩
    · simp only [firstFit, if_neg hfit] at h
      obtain ⟨l₁, l₂, rfl, h1, h2⟩ := ih h
      refine ⟨a :: l₁, l₂, rfl, ?_, h2⟩
      intro b hb
      rcases List.mem_cons.mp hb with rfl | hb
      · exact hfit
      · exact h1 b hb

theorem firstFit_of {m : Mem} {sz o : Nat} {l₁ l₂ : List Nat}
    (h1 : ∀ b ∈ l₁, ¬((m b).is_free ≠ 0 ∧ sz ≤ (m b).size))
    (h2 : (m o).is_free ≠ 0 ∧ sz ≤ (m o).size) :
    firstFit m sz (l₁ ++ o :: l₂) = some o := by
  induction l₁ with
  | nil => simp [firstFit, if_pos h2]
  | cons a l₁ ih =>
    have ha := h1 a (List.mem_cons_self a l₁)
    simp only [List.cons_append, firstFit, if_neg ha]
    exact ih (fun b hb => h1 b (List.mem_cons_of_mem a hb))

theorem blocks_alloc_head_v1 {m : Mem} {o sz : Nat} {l₂ : List Nat}
    (h : Blocks m o (o :: l₂)) (hs : sz ≤ (m o).size) :
    Blocks (allocAt m o sz) o
      (o :: (if HDR < (m o).size - sz then (o + HDR + sz) :: l₂ else l₂)) := by
  have hD : HDR = 24 := rfl
  by_cases hsplit : HDR < (m o).size - sz
  · rw [if_pos hsplit]
    obtain ⟨A1, A2, A3, A4, A5, A6⟩ := alloc_split_v1 hsplit
    cases h with
    | base _ h1 h2 =>
      refine .cons o (o + HDR + sz) [o + HDR + sz] ?_ ?_ ?_
      · rw [A3]
      · rw [A1]
      · refine .base (o + HDR + sz) ?_ ?_
        · rw [A6, h1]
        · rw [A4]
          omega
    | cons _ nx _ h1 h2 hsub =>
      refine .cons o (o + HDR + sz) ((o + HDR + sz) :: l₂) ?_ ?_ ?_
      · rw [A3]
      · rw [A1]
      · refine .cons (o + HDR + sz) nx l₂ ?_ ?_ ?_
        · rw [A6]
          exact h1
        · rw [A4]
          omega
        · refine blocks_congr hsub ?_
          intro b hb
          have hbge := blocks_mem_ge hsub b hb
          have hfr := alloc_frame_v1 m o sz b (by omega) (by omega)
          rw [hfr]
          exact ⟨rfl, rfl⟩
  · rw [if_neg hsplit]
    obtain ⟨A1, A2, A3, A4⟩ := alloc_nosplit_v1 hsplit
    cases h with
    | base _ h1 h2 =>
      refine .base o ?_ ?_
      · rw [A3]
        exact h1
      · rw [A1]
        exact h2
    | cons _ nx _ h1 h2 hsub =>
      refine .cons o nx l₂ ?_ ?_ ?_
      · rw [A3]
        exact h1
      · rw [A1]
        exact h2
      · refine blocks_congr hsub ?_
        intro b hb
        have hbge := blocks_mem_ge hsub b hb
        rw [A4 b (by omega)]
        exact ⟨rfl, rfl⟩

theorem blocks_alloc_v1 {m : Mem} {cur o sz : Nat} {l₁ l₂ : List Nat}
    (h : Blocks m cur (l₁ ++ o :: l₂)) (hs : sz ≤ (m o).size) :
    Blocks (allocAt m o sz) cur
      (l₁ ++ o :: (if HDR < (m o).size - sz then (o + HDR + sz) :: l₂ else l₂)) := by
  have hD : HDR = 24 := rfl
  induction l₁ generalizing cur with
  | nil =>
    simp only [List.nil_append] at h ⊢
    obtain ⟨l', hl⟩ := blocks_head h
    obtain ⟨rfl, rfl⟩ : o = cur ∧ l₂ = l' := by
      simp only [List.cons.injEq] at hl
      exact hl
    exact blocks_alloc_head_v1 h hs
  | cons a l₁ ih =>
    obtain ⟨heq, nx, h1, h2, hsub⟩ := blocks_cons_inv h (by simp)
    rw [heq]
    have hoin : o ∈ l₁ ++ o :: l₂ := by simp
    have hole := blocks_mem_ge hsub o hoin
    have hfr := alloc_frame_v1 m o sz cur (by omega) (by omega)
    refine .cons cur nx _ ?_ ?_ ?_
    · rw [hfr]
      exact h1
    · rw [hfr]
      exact h2
    · exact ih hsub

theorem blocks_my_free_v1 {m : Mem} {p : Option Nat} {l : List Nat}
    (h : Blocks m 0 l) : Blocks (my_free m p) 0 l := by
  cases p with
  | none => exact h
  | some q =>
    refine blocks_congr h ?_
    intro b hb
    simp only [my_free, upd]
    split_ifs with hb'
    · rw [hb']
      exact ⟨rfl, rfl⟩
    · exact ⟨rfl, rfl⟩

theorem reachable_wf_v1 {m : Mem} (h : Reachable m) : ∃ l, Blocks m 0 l := by
  induction h with
  | init =>
    refine ⟨[0], .base 0 ?_ ?_⟩ <;> decide
  | step_malloc m n hr ih =>
    obtain ⟨l, hl⟩ := ih
    by_cases hn : n = 0
    · subst hn
      exact ⟨l, hl⟩
    · rw [malloc_eq_v1 hl hn]
      cases hff : firstFit m (ALIGN n) l with
      | none => exact ⟨l, by simpa using hl⟩
      | some o =>
        obtain ⟨l₁, l₂, rfl, hpre, hfit⟩ := firstFit_decomp hff
        exact ⟨_, by simpa using blocks_alloc_v1 hl hfit.2⟩
  | step_free m p hr ih =>
    obtain ⟨l, hl⟩ := ih
    exact ⟨l, blocks_my_free_v1 hl⟩

theorem roundtrip_v1 {m : Mem} {l : List Nat} (hl : Blocks m 0 l) {n a : Nat}
    (hn : 0 < n) (hsucc : (my_malloc m n).2 = some a) :
    (my_malloc (my_free (my_malloc m n).1 (some a)) n).2 = some a := by
  have hD : HDR = 24 := rfl
  have hn0 : n ≠ 0 := by omega
  have hmm := malloc_eq_v1 hl hn0
  cases hff : firstFit m (ALIGN n) l with
  | none =>
    rw [hmm, hff] at hsucc
    simp at hsucc
  | some o =>
    rw [hmm, hff] at hsucc
    simp only [Option.elim] at hsucc
    obtain rfl : o + HDR = a := by simpa using hsucc
    obtain ⟨l₁, l₂, rfl, hpre, hfit⟩ := firstFit_decomp hff
    have h1 : (my_malloc m n).1 = allocAt m o (ALIGN n) := by
      rw [hmm, hff]
      rfl
    have hB1 := blocks_alloc_v1 hl hfit.2
    rw [h1]
    have hfree1 : my_free (allocAt m o (ALIGN n)) (some (o + HDR))
        = upd (allocAt m o (ALIGN n)) o
          ⟨(allocAt m o (ALIGN n) o).size, 1, (allocAt m o (ALIGN n) o).next⟩ := by
      simp only [my_free]
      congr 1 <;> omega
    rw [hfree1]
    have hB2 : Blocks (upd (allocAt m o (ALIGN n)) o
        ⟨(allocAt m o (ALIGN n) o).size, 1, (allocAt m o (ALIGN n) o).next⟩) 0
        (l₁ ++ o :: (if HDR < (m o).size - ALIGN n
          then (o + HDR + ALIGN n) :: l₂ else l₂)) := by
      refine blocks_congr hB1 ?_
      intro b hb
      by_cases hbo : b = o
      · subst hbo
        rw [upd_eq]
        exact ⟨rfl, rfl⟩
      · rw [upd_ne _ _ hbo]
        exact ⟨rfl, rfl⟩
    have hmm2 := malloc_eq_v1 hB2 hn0
    have hprele := blocks_prefix_le_v1 hl
    have hunch : ∀ b ∈ l₁,
        (upd (allocAt m o (ALIGN n)) o
          ⟨(allocAt m o (ALIGN n) o).size, 1, (allocAt m o (ALIGN n) o).next⟩) b
        = m b := by
      intro b hb
      have hble := hprele b hb
      rw [upd_ne _ _ (by omega), alloc_frame_v1 m o (ALIGN n) b (by omega) (by omega)]
    have hsz2 : ALIGN n ≤ ((upd (allocAt m o (ALIGN n)) o
        ⟨(allocAt m o (ALIGN n) o).size, 1, (allocAt m o (ALIGN n) o).next⟩) o).size := by
      rw [upd_eq]
      show ALIGN n ≤ (allocAt m o (ALIGN n) o).size
      by_cases hsplit : HDR < (m o).size - ALIGN n
      · rw [(alloc_split_v1 hsplit).1]
      · rw [(alloc_nosplit_v1 hsplit).1]
        exact hfit.2
    have hfree2 : ((upd (allocAt m o (ALIGN n)) o
        ⟨(allocAt m o (ALIGN n) o).size, 1, (allocAt m o (ALIGN n) o).next⟩) o).is_free
        ≠ 0 := by
      rw [upd_eq]
      simp
    have hff2 : firstFit (upd (allocAt m o (ALIGN n)) o
        ⟨(allocAt m o (ALIGN n) o).size, 1, (allocAt m o (ALIGN n) o).next⟩)
        (ALIGN n)
        (l₁ ++ o :: (if HDR < (m o).size - ALIGN n
          then (o + HDR + ALIGN n) :: l₂ else l₂)) = some o := by
      refine firstFit_of ?_ ⟨hfree2, hsz2⟩
      intro b hb
      rw [hunch b hb]
      exact hpre b hb
    rw [hmm2, hff2]
    rfl

end V1

/-
Structural lemmas for the v3 block chain.
-/

namespace V3

theorem blocks3_head {m : Mem} {cur : Nat} {l : List Nat}
    (h : Blocks3 m cur l) : ∃ l', l = cur :: l' := by
  cases h with
  | base o _ _ => exact ⟨[], rfl⟩
  | cons o l _ _ _ => exact ⟨l, rfl⟩

theorem blocks3_end_le {m : Mem} {cur : Nat} {l : List Nat}
    (h : Blocks3 m cur l) : cur + HDR + size m cur ≤ HEAP_SIZE := by
  induction h with
  | base o h1 h2 => omega
  | cons o l h1 h2 hsub ih => omega

theorem blocks3_mem_ge {m : Mem} {cur : Nat} {l : List Nat}
    (h : Blocks3 m cur l) : ∀ b ∈ l, cur ≤ b := by
  induction h with
  | base o h1 h2 =>
    intro b hb
    simp only [List.mem_singleton] at hb
    omega
  | cons o l h1 h2 hsub ih =>
    intro b hb
    rcases List.mem_cons.mp hb with hb | hb
    · omega
    · have := ih b hb
      omega

theorem blocks3_separated {m : Mem} {cur b c : Nat} {l : List Nat}
    (h : Blocks3 m cur l) (hb : b ∈ l) (hc : c ∈ l) (hne : b ≠ c) :
    b + HDR ≤ c ∨ c + HDR ≤ b := by
  induction h with
  | base o h1 h2 =>
    simp only [List.mem_singleton] at hb hc
    omega
  | cons o l h1 h2 hsub ih =>
    rcases List.mem_cons.mp hb with hb | hb
    · rcases List.mem_cons.mp hc with hc | hc
      · omega
      · have h3 := blocks3_mem_ge hsub c hc
        left; omega
    · rcases List.mem_cons.mp hc with hc | hc
      · have h3 := blocks3_mem_ge hsub b hb
        right; omega
      · exact ih hb hc

theorem blocks3_congr {m m' : Mem} {cur : Nat} {l : List Nat}
    (h : Blocks3 m cur l)
    (hm : ∀ b ∈ l, m' b = m b ∧ m' (b + 2) = m (b + 2)) :
    Blocks3 m' cur l := by
  induction h with
  | base o h1 h2 =>
    have ho := hm o (List.mem_singleton_self o)
    exact .base o (by simp only [next, ho.2]; exact h1)
      (by simp only [size, ho.1]; exact h2)
  | cons o l h1 h2 hsub ih =>
    have ho := hm o (List.mem_cons_self o l)
    have hnx : next m' o = next m o := by simp only [next, ho.2]
    have hsz : size m' o = size m o := by simp only [size, ho.1]
    refine .cons o l ?_ ?_ ?_
    · rw [hnx]; exact h1
    · rw [hnx, hsz]; exact h2
    · rw [hnx]
      exact ih (fun b hb => hm b (List.mem_cons_of_mem o hb))

theorem blocks3_length {m : Mem} {cur : Nat} {l : List Nat}
    (h : Blocks3 m cur l) : cur + HDR * l.length ≤ HEAP_SIZE := by
  induction h with
  | base o h1 h2 =>
    simp only [List.length_singleton, HDR, HEAP_SIZE] at *
    omega
  | cons o l h1 h2 hsub ih =>
    simp only [List.length_cons, HDR, HEAP_SIZE] at *
    omega

theorem blocks3_length_lt {m : Mem} {cur : Nat} {l : List Nat}
    (h : Blocks3 m cur l) : l.length < 64 := by
  have := blocks3_length h
  simp only [HDR, HEAP_SIZE] at this
  omega

theorem blocks3_suffix_frag {m : Mem} {cur b : Nat} {L : List Nat}
    (h : Blocks3 m cur L) :
    ∀ {l₁ l₂ : List Nat}, L = l₁ ++ b :: l₂ → Blocks3 m b (b :: l₂) := by
  induction h with
  | base o h1 h2 =>
    intro l₁ l₂ hL
    cases l₁ with
    | nil =>
      simp only [List.nil_append, List.cons.injEq] at hL
      obtain ⟨rfl, rfl⟩ := hL
      exact .base o h1 h2
    | cons a l₁ =>
      simp only [List.cons_append, List.cons.injEq] at hL
      exact absurd hL.2 (by simp)
  | cons o l h1 h2 hsub ih =>
    intro l₁ l₂ hL
    cases l₁ with
    | nil =>
      simp only [List.nil_append, List.cons.injEq] at hL
      obtain ⟨rfl, rfl⟩ := hL
      exact .cons o l h1 h2 hsub
    | cons a l₁ =>
      simp only [List.cons_append, List.cons.injEq] at hL
      exact ih hL.2

theorem blocks3_suffix {m : Mem} {cur b : Nat} {l₁ l₂ : List Nat}
    (h : Blocks3 m cur (l₁ ++ b :: l₂)) : Blocks3 m b (b :: l₂) :=
  blocks3_suffix_frag h rfl

theorem blocks3_cons_inv {m : Mem} {cur a : Nat} {l : List Nat}
    (h : Blocks3 m cur (a :: l)) (hne : l ≠ []) :
    a = cur ∧ next m cur ≠ 0 ∧ next m cur = cur + HDR + size m cur ∧
      Blocks3 m (next m cur) l := by
  cases h with
  | base o h1 h2 => exact absurd rfl hne
  | cons o l h1 h2 hsub => exact ⟨rfl, h1, h2, hsub⟩

theorem blocks3_next_lt {m : Mem} {o : Nat} {l : List Nat}
    (h : Blocks3 m o l) : next m o < 256 := by
  cases h with
  | base o h1 h2 => omega
  | cons o l h1 h2 hsub =>
    have h3 := blocks3_end_le hsub
    have hH : HEAP_SIZE = 64 := rfl
    omega

theorem blocks3_prefix_le {m : Mem} {cur o : Nat} {l₁ l₂ : List Nat}
    (h : Blocks3 m cur (l₁ ++ o :: l₂)) : ∀ b ∈ l₁, b + HDR ≤ o := by
  induction l₁ generalizing cur with
  | nil => simp
  | cons a l₁ ih =>
    obtain ⟨heq, h1, h2, hsub⟩ := blocks3_cons_inv h (by simp)
    intro b hb
    rcases List.mem_cons.mp hb with rfl | hb
    · have hoin : o ∈ l₁ ++ o :: l₂ := by simp
      have := blocks3_mem_ge hsub o hoin
      have hD : HDR = 4 := rfl
      omega
    · exact ih hsub b hb

theorem chain3_of_blocks {m : Mem} {cur : Nat} {l : List Nat} {fuel : Nat}
    (h : Blocks3 m cur l) (hf : l.length < fuel) :
    chain m cur fuel = some l := by
  induction h generalizing fuel with
  | base o h1 h2 =>
    cases fuel with
    | zero => simp at hf
    | succ fuel => simp [chain, h1]
  | cons o l h1 h2 hsub ih =>
    cases fuel with
    | zero => simp at hf
    | succ fuel =>
      simp only [chain, if_neg h1]
      rw [ih (by simp at hf; omega)]
      rfl

theorem validPtr3_some {m : Mem} {q : Nat} {l : List Nat}
    (h : Blocks3 m 0 l) (hv : validPtr m (some q) = true) :
    ∃ o ∈ l, q = o + HDR := by
  have hchain := chain3_of_blocks h (blocks3_length_lt h)
  simp only [validPtr, free_list] at hv
  rw [hchain] at hv
  simp only [List.any_eq_true, decide_eq_true_eq] at hv
  obtain ⟨o, ho, rfl⟩ := hv
  exact ⟨o, ho, rfl⟩

theorem blocks3_setFree {m : Mem} {o v : Nat} {l : List Nat}
    (h : Blocks3 m 0 l) (ho : o ∈ l) :
    Blocks3 (setFree m o v) 0 l := by
  have hD : HDR = 4 := rfl
  refine blocks3_congr h ?_
  intro b hb
  constructor
  · refine wr3_ne m v ?_
    by_cases hbo : b = o
    · omega
    · rcases blocks3_separated h hb ho hbo with hsep | hsep <;> omega
  · refine wr3_ne m v ?_
    by_cases hbo : b = o
    · omega
    · rcases blocks3_separated h hb ho hbo with hsep | hsep <;> omega

theorem blocks3_setRef {m : Mem} {o v : Nat} {l : List Nat}
    (h : Blocks3 m 0 l) (ho : o ∈ l) :
    Blocks3 (setRef m o v) 0 l := by
  have hD : HDR = 4 := rfl
  refine blocks3_congr h ?_
  intro b hb
  constructor
  · refine wr3_ne m v ?_
    by_cases hbo : b = o
    · omega
    · rcases blocks3_separated h hb ho hbo with hsep | hsep <;> omega
  · refine wr3_ne m v ?_
    by_cases hbo : b = o
    · omega
    · rcases blocks3_separated h hb ho hbo with hsep | hsep <;> omega

theorem blocks3_graft {m m' : Mem} {cur o : Nat} {l₁ l₂ l₂' : List Nat}
    (h : Blocks3 m cur (l₁ ++ o :: l₂))
    (hm : ∀ b ∈ l₁, m' b = m b ∧ m' (b + 2) = m (b + 2))
    (h' : Blocks3 m' o (o :: l₂')) :
    Blocks3 m' cur (l₁ ++ o :: l₂') := by
  induction l₁ generalizing cur with
  | nil =>
    obtain ⟨l', hl⟩ := blocks3_head h
    simp only [List.nil_append, List.cons.injEq] at hl
    obtain ⟨rfl, rfl⟩ := hl
    exact h'
  | cons a l₁ ih =>
    obtain ⟨heq, h1, h2, hsub⟩ := blocks3_cons_inv h (by simp)
    rw [heq] at hm ⊢
    have ha := hm cur (List.mem_cons_self cur l₁)
    have hnx : next m' cur = next m cur := by simp only [next, ha.2]
    have hsz : size m' cur = size m cur := by simp only [size, ha.1]
    refine .cons cur _ ?_ ?_ ?_
    · rw [hnx]; exact h1
    · rw [hnx, hsz]; exact h2
    · rw [hnx]
      exact ih hsub (fun b hb => hm b (List.mem_cons_of_mem cur hb))

end V3

namespace V3

set_option maxHeartbeats 2000000 in
theorem allocAt3_split {m : Mem} {cur sz : Nat} (hs : sz ≤ size m cur)
    (hend : cur + HDR + size m cur ≤ HEAP_SIZE) (h255 : sz < 256)
    (hnx : next m cur < 256) (hsplit : HDR < size m cur - sz) :
    size (allocAt m cur sz) cur = sz ∧
    is_free (allocAt m cur sz) cur = 0 ∧
    next (allocAt m cur sz) cur = cur + HDR + sz ∧
    ref_count (allocAt m cur sz) cur = 1 ∧
    size (allocAt m cur sz) (cur + HDR + sz) = size m cur - sz - HDR ∧
    is_free (allocAt m cur sz) (cur + HDR + sz) = 1 ∧
    next (allocAt m cur sz) (cur + HDR + sz) = next m cur ∧
    ref_count (allocAt m cur sz) (cur + HDR + sz) = 0 ∧
    ∀ i, (i < cur ∨ (cur + 3 < i ∧ i < cur + HDR + sz) ∨ cur + HDR + sz + 3 < i) →
      allocAt m cur sz i = m i := by
  simp only [allocAt]
  rw [if_pos hsplit]
  refine ⟨?_, ?_, ?_, ?_, ?_, ?_, ?_, ?_, ?_⟩
  · simp only [size, is_free, next, ref_count, setSize, setFree, setNext,
      setRef, wr, HDR, HEAP_SIZE] at *
    split_ifs <;> first | rfl | omega
  · simp only [size, is_free, next, ref_count, setSize, setFree, setNext,
      setRef, wr, HDR, HEAP_SIZE] at *
    split_ifs <;> first | rfl | omega
  · simp only [size, is_free, next, ref_count, setSize, setFree, setNext,
      setRef, wr, HDR, HEAP_SIZE] at *
    split_ifs <;> first | rfl | omega
  · simp only [size, is_free, next, ref_count, setSize, setFree, setNext,
      setRef, wr, HDR, HEAP_SIZE] at *
    split_ifs <;> first | rfl | omega
  · simp only [size, is_free, next, ref_count, setSize, setFree, setNext,
      setRef, wr, HDR, HEAP_SIZE] at *
    split_ifs <;> first | rfl | omega
  · simp only [size, is_free, next, ref_count, setSize, setFree, setNext,
      setRef, wr, HDR, HEAP_SIZE] at *
    split_ifs <;> first | rfl | omega
  · simp only [size, is_free, next, ref_count, setSize, setFree, setNext,
      setRef, wr, HDR, HEAP_SIZE] at *
    split_ifs <;> first | rfl | omega
  · simp only [size, is_free, next, ref_count, setSize, setFree, setNext,
      setRef, wr, HDR, HEAP_SIZE] at *
    split_ifs <;> first | rfl | omega
  · intro i hi
    simp only [size, is_free, next, ref_count, setSize, setFree, setNext,
      setRef, wr, HDR, HEAP_SIZE] at *
    split_ifs <;> first | rfl | omega

theorem allocAt3_nosplit {m : Mem} {cur sz : Nat}
    (hnosplit : ¬ HDR < size m cur - sz) :
    is_free (allocAt m cur sz) cur = 0 ∧
    ref_count (allocAt m cur sz) cur = 1 ∧
    ∀ i, i ≠ cur + 1 → i ≠ cur + 3 → allocAt m cur sz i = m i := by
  simp only [allocAt]
  rw [if_neg hnosplit]
  refine ⟨?_, ?_, ?_⟩
  · simp only [is_free, setFree, setRef, wr]
    split_ifs <;> omega
  · simp only [ref_count, setFree, setRef, wr]
    split_ifs <;> omega
  · intro i hi1 hi3
    simp only [setFree, setRef, wr]
    split_ifs <;> first | rfl | omega

theorem allocAt3_frame (m : Mem) (o sz : Nat)
    (hwrap : o + HDR + sz < 256) :
    ∀ i, i < o → allocAt m o sz i = m i := by
  intro i hi
  simp only [HDR] at hwrap
  simp only [allocAt]
  split_ifs with hsplit <;>
    simp only [setSize, setFree, setNext, setRef, size, is_free, next,
      ref_count, wr, HDR] <;>
    split_ifs <;> first | rfl | omega

theorem malloc_loop3_spec {m : Mem} {cur : Nat} {l : List Nat}
    (h : Blocks3 m cur l) {fuel : Nat} (hf : l.length < fuel) (sz : Nat) :
    malloc_loop m sz cur fuel =
      some ((firstFitIn m sz l).elim (m, none)
        (fun o => (allocAt m o sz, some (o + HDR)))) := by
  induction h generalizing fuel with
  | base o h1 h2 =>
    cases fuel with
    | zero => simp at hf
    | succ fuel =>
      have ho : o < HEAP_SIZE := by
        simp only [HEAP_SIZE, HDR] at *
        omega
      simp only [malloc_loop, if_pos ho]
      by_cases hfit : is_free m o ≠ 0 ∧ sz ≤ size m o
      · rw [if_pos hfit]
        simp only [firstFitIn, if_pos hfit, Option.elim]
      · rw [if_neg hfit, if_pos h1]
        simp only [firstFitIn, if_neg hfit, Option.elim]
  | cons o l h1 h2 hsub ih =>
    cases fuel with
    | zero => simp at hf
    | succ fuel =>
      have hend := blocks3_end_le hsub
      have ho : o < HEAP_SIZE := by
        simp only [HEAP_SIZE, HDR] at *
        omega
      simp only [malloc_loop, if_pos ho]
      by_cases hfit : is_free m o ≠ 0 ∧ sz ≤ size m o
      · rw [if_pos hfit]
        simp only [firstFitIn, if_pos hfit, Option.elim]
      · rw [if_neg hfit, if_neg h1]
        rw [ih (by simp only [List.length_cons] at hf; omega)]
        simp only [firstFitIn, if_neg hfit]

theorem my_malloc3_eq {m : Mem} {l : List Nat} (h : Blocks3 m 0 l) (sz : Nat) :
    my_malloc m sz =
      (firstFitIn m (sz % 256) l).elim (m, none)
        (fun o => (allocAt m o (sz % 256), some (o + HDR))) := by
  have hml := malloc_loop3_spec h (blocks3_length_lt h) (sz % 256)
  simp [my_malloc, free_list, hml]

theorem firstFitIn3_decomp {m : Mem} {sz o : Nat} {l : List Nat}
    (h : firstFitIn m sz l = some o) :
    ∃ l₁ l₂, l = l₁ ++ o :: l₂ ∧
      (∀ b ∈ l₁, ¬(is_free m b ≠ 0 ∧ sz ≤ size m b)) ∧
      (is_free m o ≠ 0 ∧ sz ≤ size m o) := by
  induction l with
  | nil => simp [firstFitIn] at h
  | cons a l ih =>
    by_cases hfit : is_free m a ≠ 0 ∧ sz ≤ size m a
    · simp only [firstFitIn, if_pos hfit, Option.some.injEq] at h
      subst h
      exact ⟨[], l, rfl, by simp, hfit⟩
    · simp only [firstFitIn, if_neg hfit] at h
      obtain ⟨l₁, l₂, rfl, h1, h2⟩ := ih h
      refine ⟨a :: l₁, l₂, rfl, ?_, h2⟩
      intro b hb
      rcases List.mem_cons.mp hb with rfl | hb
      · exact hfit
      · exact h1 b hb

theorem firstFitIn3_of {m : Mem} {sz o : Nat} {l₁ l₂ : List Nat}
    (h1 : ∀ b ∈ l₁, ¬(is_free m b ≠ 0 ∧ sz ≤ size m b))
    (h2 : is_free m o ≠ 0 ∧ sz ≤ size m o) :
    firstFitIn m sz (l₁ ++ o :: l₂) = some o := by
  induction l₁ with
  | nil => simp [firstFitIn, if_pos h2]
  | cons a l₁ ih =>
    have ha := h1 a (List.mem_cons_self a l₁)
    simp only [List.cons_append, firstFitIn, if_neg ha]
    exact ih (fun b hb => h1 b (List.mem_cons_of_mem a hb))

theorem blocks3_alloc_head {m : Mem} {o sz : Nat} {l₂ : List Nat}
    (h : Blocks3 m o (o :: l₂)) (hs : sz ≤ size m o) (h255 : sz < 256) :
    Blocks3 (allocAt m o sz) o
      (o :: (if HDR < size m o - sz then (o + HDR + sz) :: l₂ else l₂)) := by
  have hD : HDR = 4 := rfl
  have hH : HEAP_SIZE = 64 := rfl
  have hend : o + HDR + size m o ≤ HEAP_SIZE := blocks3_end_le h
  have hnx : next m o < 256 := blocks3_next_lt h
  by_cases hsplit : HDR < size m o - sz
  · rw [if_pos hsplit]
    obtain ⟨A1, A2, A3, A4, A5, A6, A7, A8, A9⟩ :=
      allocAt3_split hs hend h255 hnx hsplit
    cases h with
    | base _ h1 h2 =>
      refine .cons o [o + HDR + sz] ?_ ?_ ?_
      · rw [A3]; omega
      · rw [A3, A1]
      · rw [A3]
        refine .base (o + HDR + sz) ?_ ?_
        · rw [A7, h1]
        · rw [A5]; omega
    | cons _ _ h1 h2 hsub =>
      refine .cons o ((o + HDR + sz) :: l₂) ?_ ?_ ?_
      · rw [A3]; omega
      · rw [A3, A1]
      · rw [A3]
        refine .cons (o + HDR + sz) l₂ ?_ ?_ ?_
        · rw [A7]; exact h1
        · rw [A7, A5, h2]; omega
        · rw [A7]
          refine blocks3_congr hsub ?_
          intro b hb
          have hbge := blocks3_mem_ge hsub b hb
          exact ⟨A9 b (by omega), A9 (b + 2) (by omega)⟩
  · rw [if_neg hsplit]
    obtain ⟨A1, A2, A3⟩ := allocAt3_nosplit hsplit
    have hsz : size (allocAt m o sz) o = size m o := A3 o (by omega) (by omega)
    have hnxeq : next (allocAt m o sz) o = next m o :=
      A3 (o + 2) (by omega) (by omega)
    cases h with
    | base _ h1 h2 =>
      refine .base o ?_ ?_
      · rw [hnxeq, h1]
      · rw [hsz]; exact h2
    | cons _ _ h1 h2 hsub =>
      refine .cons o l₂ ?_ ?_ ?_
      · rw [hnxeq]; exact h1
      · rw [hnxeq, hsz]; exact h2
      · rw [hnxeq]
        refine blocks3_congr hsub ?_
        intro b hb
        have hbge := blocks3_mem_ge hsub b hb
        exact ⟨A3 b (by omega) (by omega), A3 (b + 2) (by omega) (by omega)⟩

theorem blocks3_alloc {m : Mem} {cur o sz : Nat} {l₁ l₂ : List Nat}
    (h : Blocks3 m cur (l₁ ++ o :: l₂)) (hs : sz ≤ size m o)
    (h255 : sz < 256) :
    Blocks3 (allocAt m o sz) cur
      (l₁ ++ o :: (if HDR < size m o - sz then (o + HDR + sz) :: l₂ else l₂)) := by
  have hD : HDR = 4 := rfl
  have hH : HEAP_SIZE = 64 := rfl
  induction l₁ generalizing cur with
  | nil =>
    simp only [List.nil_append] at h ⊢
    obtain ⟨l', hl⟩ := blocks3_head h
    obtain ⟨rfl, rfl⟩ : o = cur ∧ l₂ = l' := by
      simp only [List.cons.injEq] at hl
      exact hl
    exact blocks3_alloc_head h hs h255
  | cons a l₁ ih =>
    obtain ⟨heq, h1, h2, hsub⟩ := blocks3_cons_inv h (by simp)
    rw [heq]
    have hoin : o ∈ l₁ ++ o :: l₂ := by simp
    have hole := blocks3_mem_ge hsub o hoin
    have hS := blocks3_suffix hsub
    have hend := blocks3_end_le hS
    have hwrap : o + HDR + sz < 256 := by omega
    have hfr := allocAt3_frame m o sz hwrap
    have hnxeq : next (allocAt m o sz) cur = next m cur :=
      hfr (cur + 2) (by omega)
    have hszeq : size (allocAt m o sz) cur = size m cur :=
      hfr cur (by omega)
    refine .cons cur _ ?_ ?_ ?_
    · rw [hnxeq]; exact h1
    · rw [hnxeq, hszeq]; exact h2
    · rw [hnxeq]
      exact ih hsub

end V3

namespace V3

/-- Releasing the payload of a chain block yields a well-formed chain
again: the prefix is untouched bytewise, the released block keeps at
least its size (it can only grow by a forward merge), and it is free
afterwards. -/
theorem blocks3_my_free {m : Mem} {o : Nat} {l₁ l₂ : List Nat}
    (h : Blocks3 m 0 (l₁ ++ o :: l₂)) :
    ∃ l₂', Blocks3 (my_free m (some (o + HDR))) 0 (l₁ ++ o :: l₂') ∧
      (∀ b ∈ l₁, my_free m (some (o + HDR)) b = m b ∧
        my_free m (some (o + HDR)) (b + 1) = m (b + 1)) ∧
      size m o ≤ size (my_free m (some (o + HDR))) o ∧
      is_free (my_free m (some (o + HDR))) o ≠ 0 := by
  have hD : HDR = 4 := rfl
  have hH : HEAP_SIZE = 64 := rfl
  have hS := blocks3_suffix h
  have hend := blocks3_end_le hS
  have ho256 : o < 256 := by omega
  have hprelt := blocks3_prefix_le h
  have hoin : o ∈ l₁ ++ o :: l₂ := by simp
  by_cases halloc : is_free m o = 0
  · have hnb : next m o = 0 ∨ o + HDR ≤ next m o := by
      cases hS with
      | base _ h1 _ => exact Or.inl h1
      | cons _ _ h1 h2 hsub => right; omega
    have hsz0 : HDR + size m 0 ≤ HEAP_SIZE := by
      have := blocks3_end_le h
      omega
    have hsum : size m o + HDR + size m (next m o) < 256 := by
      cases hS with
      | base _ h1 _ =>
        rw [h1]
        omega
      | cons _ _ h1 h2 hsub =>
        have := blocks3_end_le hsub
        omega
    have hnx : next m (next m o) < 256 := by
      cases hS with
      | base _ h1 _ =>
        rw [h1]
        exact blocks3_next_lt h
      | cons _ _ h1 h2 hsub => exact blocks3_next_lt hsub
    obtain ⟨F1, F2, F3, F4⟩ := my_free_spec m ho256 halloc hnb hsum hnx
    by_cases hmerge : next m o ≠ 0 ∧ is_free m (next m o) ≠ 0
    · obtain ⟨Fsz, Fnx⟩ := F2 hmerge.1 hmerge.2
      cases hS with
      | base _ h1 _ => exact absurd h1 hmerge.1
      | cons _ _ h1 h2 hsub =>
        have hendnb := blocks3_end_le hsub
        have htail : ∃ l₂', l₂ = next m o :: l₂' ∧
            Blocks3 (my_free m (some (o + HDR))) o (o :: l₂') := by
          cases hsub with
          | base _ g1 g2 =>
            refine ⟨[], rfl, .base o ?_ ?_⟩
            · rw [Fnx]
              exact g1
            · rw [Fsz]
              omega
          | cons _ l' g1 g2 gsub =>
            refine ⟨l', rfl, .cons o l' ?_ ?_ ?_⟩
            · rw [Fnx]
              exact g1
            · rw [Fnx, Fsz]
              omega
            · rw [Fnx]
              refine blocks3_congr gsub ?_
              intro b hb
              have hbge := blocks3_mem_ge gsub b hb
              exact ⟨F4 b (by omega) (by omega) (by omega),
                F4 (b + 2) (by omega) (by omega) (by omega)⟩
        obtain ⟨l₂', rfl, htc⟩ := htail
        refine ⟨l₂', ?_, ?_, ?_, ?_⟩
        · refine blocks3_graft h ?_ htc
          intro b hb
          have hble := hprelt b hb
          exact ⟨F4 b (by omega) (by omega) (by omega),
            F4 (b + 2) (by omega) (by omega) (by omega)⟩
        · intro b hb
          have hble := hprelt b hb
          exact ⟨F4 b (by omega) (by omega) (by omega),
            F4 (b + 1) (by omega) (by omega) (by omega)⟩
        · rw [Fsz]
          omega
        · rw [F1]
          omega
    · have hdisj : next m o = 0 ∨ is_free m (next m o) = 0 := by
        by_cases hn0 : next m o = 0
        · exact Or.inl hn0
        · right
          by_contra hf
          exact hmerge ⟨hn0, hf⟩
      have hframe := F3 hdisj
      refine ⟨l₂, ?_, ?_, ?_, ?_⟩
      · refine blocks3_congr h ?_
        intro b hb
        by_cases hbo : b = o
        · exact ⟨hframe b (by omega), hframe (b + 2) (by omega)⟩
        · rcases blocks3_separated h hb hoin hbo with hsep | hsep
          · exact ⟨hframe b (by omega), hframe (b + 2) (by omega)⟩
          · exact ⟨hframe b (by omega), hframe (b + 2) (by omega)⟩
      · intro b hb
        have hble := hprelt b hb
        exact ⟨hframe b (by omega), hframe (b + 1) (by omega)⟩
      · exact Nat.le_of_eq (hframe o (by omega)).symm
      · rw [F1]
        omega
  · have hid : my_free m (some (o + HDR)) = m := by
      simp only [my_free]
      rw [blockOffset_payload ho256, if_neg halloc]
    refine ⟨l₂, ?_, ?_, ?_, ?_⟩
    · rw [hid]
      exact h
    · intro b _
      rw [hid]
      exact ⟨rfl, rfl⟩
    · rw [hid]
    · rw [hid]
      exact halloc

/-- Every heap state reachable through the v3 operations carries a
well-formed block chain anchored at the free-list head. -/
theorem reachable_wf3 {m : Mem} (h : Reachable m) : ∃ l, Blocks3 m 0 l := by
  induction h with
  | init =>
    refine ⟨[0], .base 0 ?_ ?_⟩ <;> decide
  | step_malloc m n hr ih =>
    obtain ⟨l, hl⟩ := ih
    rw [my_malloc3_eq hl n]
    cases hff : firstFitIn m (n % 256) l with
    | none => exact ⟨l, by simpa using hl⟩
    | some o =>
      obtain ⟨l₁, l₂, rfl, hpre, hfit⟩ := firstFitIn3_decomp hff
      exact ⟨_, by
        simpa using blocks3_alloc hl hfit.2 (Nat.mod_lt n (by omega))⟩
  | step_free m p hr hv ih =>
    obtain ⟨l, hl⟩ := ih
    cases p with
    | none => exact ⟨l, hl⟩
    | some q =>
      obtain ⟨o, hoin, rfl⟩ := validPtr3_some hl hv
      obtain ⟨l₁, l₂, rfl⟩ := List.append_of_mem hoin
      obtain ⟨l₂', hB, _, _, _⟩ := blocks3_my_free hl
      exact ⟨_, hB⟩
  | step_incr m p hr hv ih =>
    obtain ⟨l, hl⟩ := ih
    cases p with
    | none => exact ⟨l, hl⟩
    | some q =>
      obtain ⟨o, hoin, rfl⟩ := validPtr3_some hl hv
      obtain ⟨l₁, l₂, rfl⟩ := List.append_of_mem hoin
      have hS := blocks3_suffix hl
      have hend := blocks3_end_le hS
      have ho256 : o < 256 := by
        have hD : HDR = 4 := rfl
        have hH : HEAP_SIZE = 64 := rfl
        omega
      refine ⟨l₁ ++ o :: l₂, ?_⟩
      simp only [increment_ref]
      rw [blockOffset_payload ho256]
      exact blocks3_setRef hl (by simp)
  | step_decr m p hr hv ih =>
    obtain ⟨l, hl⟩ := ih
    cases p with
    | none => exact ⟨l, hl⟩
    | some q =>
      obtain ⟨o, hoin, rfl⟩ := validPtr3_some hl hv
      obtain ⟨l₁, l₂, rfl⟩ := List.append_of_mem hoin
      have hS := blocks3_suffix hl
      have hend := blocks3_end_le hS
      have ho256 : o < 256 := by
        have hD : HDR = 4 := rfl
        have hH : HEAP_SIZE = 64 := rfl
        omega
      simp only [decrement_ref]
      rw [blockOffset_payload ho256]
      by_cases hrc : 0 < ref_count m o
      · rw [if_pos hrc]
        have hB1 : Blocks3 (setRef m o (ref_count m o + 255)) 0
            (l₁ ++ o :: l₂) := blocks3_setRef hl (by simp)
        by_cases hz : ref_count (setRef m o (ref_count m o + 255)) o = 0
        · rw [if_pos hz]
          obtain ⟨l₂', hB, _, _, _⟩ := blocks3_my_free hB1
          exact ⟨_, hB⟩
        · rw [if_neg hz]
          exact ⟨_, hB1⟩
      · rw [if_neg hrc]
        exact ⟨_, hl⟩

/-- v3 round trip: a successful allocation, released and immediately
re-requested with the same size, is granted the same payload address
(the released block can only have grown by the forward merge). -/
theorem roundtrip3 {m : Mem} {l : List Nat} (hl : Blocks3 m 0 l)
    {n : Nat} (h255 : n < 256) {a : Nat}
    (hsucc : (my_malloc m n).2 = some a) :
    (my_malloc (my_free (my_malloc m n).1 (some a)) n).2 = some a := by
  have hD : HDR = 4 := rfl
  have hH : HEAP_SIZE = 64 := rfl
  have hmod : n % 256 = n := Nat.mod_eq_of_lt h255
  have hmm := my_malloc3_eq hl n
  rw [hmod] at hmm
  cases hff : firstFitIn m n l with
  | none =>
    rw [hmm, hff] at hsucc
    simp at hsucc
  | some o =>
    rw [hmm, hff] at hsucc
    simp only [Option.elim] at hsucc
    obtain rfl : o + HDR = a := by
      simpa using hsucc
    obtain ⟨l₁, l₂, rfl, hpre, hfit⟩ := firstFitIn3_decomp hff
    have hS := blocks3_suffix hl
    have hend := blocks3_end_le hS
    have hnx := blocks3_next_lt hS
    have ho256 : o < 256 := by omega
    have hB1 : Blocks3 (allocAt m o n) 0
        (l₁ ++ o :: (if HDR < size m o - n then (o + HDR + n) :: l₂ else l₂)) :=
      blocks3_alloc hl hfit.2 h255
    have hm1 : (my_malloc m n).1 = allocAt m o n := by
      rw [hmm, hff]
      rfl
    rw [hm1]
    have hsz1 : n ≤ size (allocAt m o n) o := by
      by_cases hsplit : HDR < size m o - n
      · obtain ⟨A1, _⟩ := allocAt3_split hfit.2 hend h255 hnx hsplit
        rw [A1]
      · obtain ⟨_, _, A3⟩ := allocAt3_nosplit hsplit
        have heq : size (allocAt m o n) o = size m o :=
          A3 o (by omega) (by omega)
        rw [heq]
        exact hfit.2
    obtain ⟨l₂', hB2, hunch, hszle, hfree⟩ := blocks3_my_free hB1
    have hwrap : o + HDR + n < 256 := by omega
    have hfr := allocAt3_frame m o n hwrap
    have hprelt := blocks3_prefix_le hl
    have hmm2 := my_malloc3_eq hB2 n
    rw [hmod] at hmm2
    have hff2 : firstFitIn (my_free (allocAt m o n) (some (o + HDR))) n
        (l₁ ++ o :: l₂') = some o := by
      refine firstFitIn3_of ?_ ⟨hfree, Nat.le_trans hsz1 hszle⟩
      intro b hb
      have hble := hprelt b hb
      have h1 : is_free (my_free (allocAt m o n) (some (o + HDR))) b
          = is_free m b := by
        show my_free (allocAt m o n) (some (o + HDR)) (b + 1) = m (b + 1)
        rw [(hunch b hb).2]
        exact hfr (b + 1) (by omega)
      have h2 : size (my_free (allocAt m o n) (some (o + HDR))) b
          = size m b := by
        show my_free (allocAt m o n) (some (o + HDR)) b = m b
        rw [(hunch b hb).1]
        exact hfr b (by omega)
      rw [h1, h2]
      exact hpre b hb
    rw [hmm2, hff2]
    simp [Option.elim]

end V3

/-
Claim theorems.
-/

/-- Claim C1, counterexample: in v2_heap.c (and likewise 1_heap.c),
my_free performs no coalescing at all.  After init_heap and malloc(20)
(which returns payload address 3 and leaves a free neighbor at offset
23), releasing that address marks block 0 free but leaves its size 20
and next 23: the claimed merge (size 125 = 20 + 102 + one header, next 0)
does not happen even though the list-next neighbor exists and is free. -/
theorem C1_counterexample :
    (V2.my_malloc V2.init_heap 20).2 = some 3 ∧
    V2.is_free (V2.my_free (V2.my_malloc V2.init_heap 20).1 (some 3)) 0 = 1 ∧
    V2.next (V2.my_free (V2.my_malloc V2.init_heap 20).1 (some 3)) 0 = 23 ∧
    V2.is_free (V2.my_free (V2.my_malloc V2.init_heap 20).1 (some 3)) 23 = 1 ∧
    V2.size (V2.my_free (V2.my_malloc V2.init_heap 20).1 (some 3)) 0 = 20 ∧
    ¬ V2.size (V2.my_free (V2.my_malloc V2.init_heap 20).1 (some 3)) 0 = 125 := by
  refine ⟨?_, ?_, ?_, ?_, ?_, ?_⟩ <;> decide

/-- Claim C1, amended: only the reference-counted variant v3_heap.c
coalesces on release.  There, releasing a currently allocated block
marks it free and performs exactly one step of forward coalescing: when
the list-next neighbor exists (next nonzero) and is free, the two merge
into a single block whose size is the sum of both sizes plus one
header's worth and whose next becomes the neighbor's next; otherwise
only the is_free flag changes; in both cases no byte outside the
released block's own header is written, so no backward merge ever
occurs.  In 1_heap.c and v2_heap.c, my_free only marks the block free
and performs no coalescing at all. -/
theorem C1_release_forward_coalesce :
    (∀ (m : V3.Mem) (o : Nat), o < 256 → V3.is_free m o = 0 →
      (V3.next m o = 0 ∨ o + V3.HDR ≤ V3.next m o) →
      V3.size m o + V3.HDR + V3.size m (V3.next m o) < 256 →
      V3.next m (V3.next m o) < 256 →
      V3.is_free (V3.my_free m (some (o + V3.HDR))) o = 1 ∧
      (V3.next m o ≠ 0 → V3.is_free m (V3.next m o) ≠ 0 →
        V3.size (V3.my_free m (some (o + V3.HDR))) o
            = V3.size m o + V3.HDR + V3.size m (V3.next m o) ∧
        V3.next (V3.my_free m (some (o + V3.HDR))) o
            = V3.next m (V3.next m o)) ∧
      ((V3.next m o = 0 ∨ V3.is_free m (V3.next m o) = 0) →
        ∀ i, i ≠ o + 1 → V3.my_free m (some (o + V3.HDR)) i = m i) ∧
      (∀ i, i ≠ o → i ≠ o + 1 → i ≠ o + 2 →
        V3.my_free m (some (o + V3.HDR)) i = m i)) ∧
    (∀ (m : V2.Mem) (o : Nat), o < 256 →
      V2.is_free (V2.my_free m (some (o + V2.HDR))) o = 1 ∧
      ∀ i, i ≠ o + 1 → V2.my_free m (some (o + V2.HDR)) i = m i) ∧
    (∀ (m : V1.Mem) (q : Nat),
      ((V1.my_free m (some q)) (q - V1.HDR)).is_free = 1 ∧
      ((V1.my_free m (some q)) (q - V1.HDR)).size = (m (q - V1.HDR)).size ∧
      ((V1.my_free m (some q)) (q - V1.HDR)).next = (m (q - V1.HDR)).next ∧
      ∀ j, j ≠ q - V1.HDR → V1.my_free m (some q) j = m j) := by
  refine ⟨?_, ?_, ?_⟩
  · intro m o ho h1 h2 h3 h4
    exact V3.my_free_spec m ho h1 h2 h3 h4
  · intro m o ho
    rw [V2.my_free_payload m ho]
    constructor
    · show V2.wr m (o + 1) 1 (o + 1) = 1
      rw [V2.wr_eq]
    · intro i hi
      exact V2.wr_ne m _ hi
  · intro m q
    exact V1.my_free_fields m q

/-- Claim C1, witness: a concrete v3 run.  After malloc(20) and
malloc(10), block 24 (payload 28, size 10, allocated) has the free block
38 (size 22) as its list-next neighbor; releasing payload 28 marks block
24 free and merges forward: size 10 + 4 + 22 = 36 and next 0. -/
theorem C1_release_forward_coalesce_witness :
    V3.is_free (V3.my_malloc (V3.my_malloc V3.init_heap 20).1 10).1 24 = 0 ∧
    V3.is_free (V3.my_free (V3.my_malloc (V3.my_malloc V3.init_heap 20).1 10).1
      (some 28)) 24 = 1 ∧
    V3.size (V3.my_free (V3.my_malloc (V3.my_malloc V3.init_heap 20).1 10).1
      (some 28)) 24 = 36 ∧
    V3.next (V3.my_free (V3.my_malloc (V3.my_malloc V3.init_heap 20).1 10).1
      (some 28)) 24 = 0 := by
  have h := C1_release_forward_coalesce.1
    (V3.my_malloc (V3.my_malloc V3.init_heap 20).1 10).1 24
    (by decide) (by decide) (by decide) (by decide) (by decide)
  refine ⟨by decide, h.1, ?_, ?_⟩
  · have := (h.2.1 (by decide) (by decide)).1
    exact this.trans (by decide)
  · have := (h.2.1 (by decide) (by decide)).2
    exact this.trans (by decide)

/-- Claim C2, counterexample: in v2_heap.c there is no zero-size guard.
On the freshly initialized heap, my_malloc(0) does not return the
failure sentinel: it returns payload address 3 and mutates the heap
(the first block's size byte changes from 125 to 0). -/
theorem C2_counterexample :
    (V2.my_malloc V2.init_heap 0).2 = some 3 ∧
    ¬ (V2.my_malloc V2.init_heap 0).1 0 = V2.init_heap 0 := by
  constructor <;> decide

/-- Claim C2, amended: only 1_heap.c rejects a zero-byte request:
my_malloc(0) there returns the failure sentinel and leaves the heap
untouched.  v2_heap.c and v3_heap.c have no zero-size guard: on a heap
whose first block is free, a zero-byte request is granted the first
block's payload address and the block is split down to size 0. -/
theorem C2_zero_request :
    (∀ m : V1.Mem, V1.my_malloc m 0 = (m, none)) ∧
    (V2.my_malloc V2.init_heap 0).2 = some (V2.free_list + V2.HDR) ∧
    V2.size (V2.my_malloc V2.init_heap 0).1 V2.free_list = 0 ∧
    (V3.my_malloc V3.init_heap 0).2 = some (V3.free_list + V3.HDR) ∧
    V3.size (V3.my_malloc V3.init_heap 0).1 V3.free_list = 0 := by
  refine ⟨fun m => rfl, ?_, ?_, ?_, ?_⟩ <;> decide

/-- Claim C7: decrement_ref on the payload of a currently allocated
block is clamped at zero: a zero count is left entirely unchanged; a
positive count is decremented by exactly one; the block is released
(becomes visible as free) exactly when the count reaches zero, and
stays allocated (only the ref_count byte changes) while the count is
still positive. -/
theorem C7_decrement_ref_spec (m : V3.Mem) (o : Nat) (ho : o < 256)
    (halloc : V3.is_free m o = 0) (hrc : V3.ref_count m o < 256) :
    (V3.ref_count m o = 0 → V3.decrement_ref m (some (o + V3.HDR)) = m) ∧
    (0 < V3.ref_count m o →
      V3.ref_count (V3.decrement_ref m (some (o + V3.HDR))) o
          = V3.ref_count m o - 1 ∧
      (1 < V3.ref_count m o →
        V3.is_free (V3.decrement_ref m (some (o + V3.HDR))) o = 0 ∧
        ∀ i, i ≠ o + 3 → V3.decrement_ref m (some (o + V3.HDR)) i = m i) ∧
      (V3.ref_count m o = 1 →
        V3.is_free (V3.decrement_ref m (some (o + V3.HDR))) o = 1)) := by
  have hD : V3.HDR = 4 := rfl
  constructor
  · intro h0
    exact V3.decrement_ref_zero m ho h0
  · intro hpos
    simp only [V3.decrement_ref]
    rw [V3.blockOffset_payload ho, if_pos hpos]
    have hr1 : V3.ref_count (V3.setRef m o (V3.ref_count m o + 255)) o
        = V3.ref_count m o - 1 := by
      show V3.wr m (o + 3) (V3.ref_count m o + 255) (o + 3)
        = V3.ref_count m o - 1
      rw [V3.wr3_eq]
      omega
    have hf1 : V3.is_free (V3.setRef m o (V3.ref_count m o + 255)) o
        = V3.is_free m o := by
      show V3.wr m (o + 3) (V3.ref_count m o + 255) (o + 1) = m (o + 1)
      exact V3.wr3_ne m _ (by omega)
    by_cases h1 : V3.ref_count m o = 1
    · rw [if_pos (by rw [hr1]; omega)]
      have hne : ∀ q, (some (o + V3.HDR) : Option Nat) = some q →
          V3.blockOffset q ≠ o + 3 ∧ V3.blockOffset q + 1 ≠ o + 3 ∧
          V3.blockOffset q + 2 ≠ o + 3 := by
        intro q hq
        obtain rfl : q = o + V3.HDR := (Option.some.inj hq).symm
        rw [V3.blockOffset_payload ho]
        omega
      refine ⟨?_, fun hgt => absurd h1 (by omega), ?_⟩
      · rw [V3.ref_count_my_free _ _ hne, hr1]
      · intro _
        exact V3.my_free_marks _ ho (by rw [hf1]; exact halloc)
    · rw [if_neg (by rw [hr1]; omega)]
      refine ⟨hr1, ?_, fun h => absurd h h1⟩
      intro _
      refine ⟨by rw [hf1]; exact halloc, ?_⟩
      intro i hi
      exact V3.wr3_ne m _ hi

/-- Claim C7, witness: in a concrete v3 run, block 24 is allocated with
ref_count 1 (set by my_malloc); decrement_ref on its payload brings the
count to 0 and the block becomes visible as free. -/
theorem C7_decrement_ref_spec_witness :
    V3.ref_count (V3.my_malloc (V3.my_malloc V3.init_heap 20).1 10).1 24 = 1 ∧
    V3.ref_count (V3.decrement_ref
      (V3.my_malloc (V3.my_malloc V3.init_heap 20).1 10).1 (some 28)) 24 = 0 ∧
    V3.is_free (V3.decrement_ref
      (V3.my_malloc (V3.my_malloc V3.init_heap 20).1 10).1 (some 28)) 24 = 1 := by
  have h := C7_decrement_ref_spec
    (V3.my_malloc (V3.my_malloc V3.init_heap 20).1 10).1 24
    (by decide) (by decide) (by decide)
  have h2 := h.2 (by decide)
  exact ⟨by decide, h2.1.trans (by decide), h2.2.2 (by decide)⟩

/-- Claim C9: in the reference-counted variant, my_free on an address
whose block is already free is a no-op: the is_free guard makes the
function return with the heap bytes (every header field of every block)
completely unchanged, so a double release never triggers a second
coalescing step. -/
theorem C9_double_release (m : V3.Mem) (q : Nat)
    (hfree : V3.is_free m (V3.blockOffset q) ≠ 0) :
    V3.my_free m (some q) = m := by
  simp only [V3.my_free]
  rw [if_neg hfree]

/-- Claim C9, witness: releasing payload 28 once frees block 24;
releasing it a second time leaves the heap state literally unchanged. -/
theorem C9_double_release_witness :
    V3.is_free (V3.my_free (V3.my_malloc (V3.my_malloc V3.init_heap 20).1 10).1
      (some 28)) (V3.blockOffset 28) ≠ 0 ∧
    V3.my_free (V3.my_free (V3.my_malloc (V3.my_malloc V3.init_heap 20).1 10).1
      (some 28)) (some 28)
      = V3.my_free (V3.my_malloc (V3.my_malloc V3.init_heap 20).1 10).1
        (some 28) := by
  refine ⟨by decide, ?_⟩
  exact C9_double_release _ 28 (by decide)

/-- Claim C10: increment_ref is an 8-bit increment modulo 256: on a
block whose ref_count is 255 one more acquire wraps the count to 0, and
from then on every decrement_ref on that block is a no-op (the zero
clamp), so the block can never be released through relinquish. -/
theorem C10_refcount_wraparound (m : V3.Mem) (o : Nat) (ho : o < 256)
    (hrc : V3.ref_count m o = 255) :
    V3.ref_count (V3.increment_ref m (some (o + V3.HDR))) o = 0 ∧
    ∀ k, (fun s => V3.decrement_ref s (some (o + V3.HDR)))^[k]
        (V3.increment_ref m (some (o + V3.HDR)))
      = V3.increment_ref m (some (o + V3.HDR)) := by
  have h0 : V3.ref_count (V3.increment_ref m (some (o + V3.HDR))) o = 0 := by
    simp only [V3.increment_ref]
    rw [V3.blockOffset_payload ho]
    show V3.wr m (o + 3) (V3.ref_count m o + 1) (o + 3) = 0
    rw [V3.wr3_eq, hrc]
  refine ⟨h0, ?_⟩
  intro k
  induction k with
  | zero => rfl
  | succ k ih =>
    rw [Function.iterate_succ_apply', ih]
    exact V3.decrement_ref_zero _ ho h0

/-- Claim C10, witness: a concrete heap whose block 24 has ref_count
255; one increment_ref wraps it to 0, and three decrement_ref calls in a
row change nothing. -/
theorem C10_refcount_wraparound_witness :
    V3.ref_count (V3.setRef (V3.my_malloc (V3.my_malloc V3.init_heap 20).1 10).1
      24 255) 24 = 255 ∧
    V3.ref_count (V3.increment_ref (V3.setRef
      (V3.my_malloc (V3.my_malloc V3.init_heap 20).1 10).1 24 255)
      (some 28)) 24 = 0 ∧
    (fun s => V3.decrement_ref s (some 28))^[3]
      (V3.increment_ref (V3.setRef
        (V3.my_malloc (V3.my_malloc V3.init_heap 20).1 10).1 24 255) (some 28))
      = V3.increment_ref (V3.setRef
        (V3.my_malloc (V3.my_malloc V3.init_heap 20).1 10).1 24 255) (some 28) := by
  have h := C10_refcount_wraparound
    (V3.setRef (V3.my_malloc (V3.my_malloc V3.init_heap 20).1 10).1 24 255) 24
    (by decide) (by decide)
  exact ⟨by decide, h.1, h.2 3⟩

/-- Claim C3: the split policy of my_malloc, proved for v2_heap.c,
for 1_heap.c (with the aligned request) and for v3_heap.c.  For the
block selected by the first-fit search: when its payload exceeds the
(possibly aligned) request by strictly more than one header's worth, a
new header is written exactly requestedSize bytes past the selected
block's payload start, the new block's size is the remainder minus one
header, it is free and inherits the old block's next, while the
selected block shrinks to exactly the request and its next becomes the
new block; when the excess is at most one header's worth no split
happens and the block is handed out with its original size.  The
returned address is the selected block's payload. -/
theorem C3_split_policy :
    (∀ (m : V2.Mem) (l : List Nat) (n o : Nat),
      V2.Reachable m → V2.BlocksFrom m 0 l →
      V2.firstFitIn m n l = some o → 0 < n → n < 256 →
      (V2.my_malloc m n).2 = some (o + V2.HDR) ∧
      V2.is_free (V2.my_malloc m n).1 o = 0 ∧
      (V2.HDR < V2.size m o - n →
        V2.size (V2.my_malloc m n).1 (o + V2.HDR + n)
            = V2.size m o - n - V2.HDR ∧
        V2.is_free (V2.my_malloc m n).1 (o + V2.HDR + n) = 1 ∧
        V2.next (V2.my_malloc m n).1 (o + V2.HDR + n) = V2.next m o ∧
        V2.size (V2.my_malloc m n).1 o = n ∧
        V2.next (V2.my_malloc m n).1 o = o + V2.HDR + n) ∧
      (¬ V2.HDR < V2.size m o - n →
        V2.size (V2.my_malloc m n).1 o = V2.size m o ∧
        V2.next (V2.my_malloc m n).1 o = V2.next m o)) ∧
    (∀ (m : V1.Mem) (l : List Nat) (n o : Nat),
      V1.Reachable m → V1.Blocks m 0 l →
      V1.firstFit m (V1.ALIGN n) l = some o → 0 < n →
      (V1.my_malloc m n).2 = some (o + V1.HDR) ∧
      ((V1.my_malloc m n).1 o).is_free = 0 ∧
      (V1.HDR < (m o).size - V1.ALIGN n →
        ((V1.my_malloc m n).1 (o + V1.HDR + V1.ALIGN n)).size
            = (m o).size - V1.ALIGN n - V1.HDR ∧
        ((V1.my_malloc m n).1 (o + V1.HDR + V1.ALIGN n)).is_free = 1 ∧
        ((V1.my_malloc m n).1 (o + V1.HDR + V1.ALIGN n)).next = (m o).next ∧
        ((V1.my_malloc m n).1 o).size = V1.ALIGN n ∧
        ((V1.my_malloc m n).1 o).next = some (o + V1.HDR + V1.ALIGN n)) ∧
      (¬ V1.HDR < (m o).size - V1.ALIGN n →
        ((V1.my_malloc m n).1 o).size = (m o).size ∧
        ((V1.my_malloc m n).1 o).next = (m o).next)) ∧
    (∀ (m : V3.Mem) (l : List Nat) (n o : Nat),
      V3.Reachable m → V3.Blocks3 m 0 l →
      V3.firstFitIn m n l = some o → 0 < n → n < 256 →
      (V3.my_malloc m n).2 = some (o + V3.HDR) ∧
      V3.is_free (V3.my_malloc m n).1 o = 0 ∧
      (V3.HDR < V3.size m o - n →
        V3.size (V3.my_malloc m n).1 (o + V3.HDR + n)
            = V3.size m o - n - V3.HDR ∧
        V3.is_free (V3.my_malloc m n).1 (o + V3.HDR + n) = 1 ∧
        V3.next (V3.my_malloc m n).1 (o + V3.HDR + n) = V3.next m o ∧
        V3.size (V3.my_malloc m n).1 o = n ∧
        V3.next (V3.my_malloc m n).1 o = o + V3.HDR + n) ∧
      (¬ V3.HDR < V3.size m o - n →
        V3.size (V3.my_malloc m n).1 o = V3.size m o ∧
        V3.next (V3.my_malloc m n).1 o = V3.next m o)) := by
  refine ⟨?_, ?_, ?_⟩
  · intro m l n o hr hl hsel hn h255
    have hmod := Nat.mod_eq_of_lt h255
    have hmm := V2.my_malloc_eq hl n
    rw [hmod] at hmm
    have h1 : (V2.my_malloc m n).1 = V2.allocAt m o n := by
      rw [hmm, hsel]
      rfl
    have h2 : (V2.my_malloc m n).2 = some (o + V2.HDR) := by
      rw [hmm, hsel]
      rfl
    obtain ⟨l₁, l₂, rfl, hpre, hfit⟩ := V2.firstFitIn_decomp hsel
    have hS := V2.blocksFrom_suffix hl
    have hend := V2.blocksFrom_end_le hS
    have hnx := V2.blocksFrom_next_lt hS
    have hD : V2.HDR = 3 := rfl
    refine ⟨h2, ?_, ?_, ?_⟩
    · rw [h1]
      by_cases hsplit : V2.HDR < V2.size m o - n
      · exact (V2.allocAt_split hfit.2 hend h255 hnx hsplit).2.1
      · exact (V2.allocAt_nosplit hsplit).1
    · intro hsplit
      obtain ⟨A1, A2, A3, A4, A5, A6, A7⟩ :=
        V2.allocAt_split hfit.2 hend h255 hnx hsplit
      rw [h1]
      exact ⟨A4, A5, A6, A1, A3⟩
    · intro hnosplit
      obtain ⟨A1, A2⟩ := V2.allocAt_nosplit hnosplit
      rw [h1]
      exact ⟨A2 o (by omega), A2 (o + 2) (by omega)⟩
  · intro m l n o hr hl hsel hn
    have hn0 : n ≠ 0 := by omega
    have hmm := V1.malloc_eq_v1 hl hn0
    have h1 : (V1.my_malloc m n).1 = V1.allocAt m o (V1.ALIGN n) := by
      rw [hmm, hsel]
      rfl
    have h2 : (V1.my_malloc m n).2 = some (o + V1.HDR) := by
      rw [hmm, hsel]
      rfl
    refine ⟨h2, ?_, ?_, ?_⟩
    · rw [h1]
      by_cases hsplit : V1.HDR < (m o).size - V1.ALIGN n
      · exact (V1.alloc_split_v1 hsplit).2.1
      · exact (V1.alloc_nosplit_v1 hsplit).2.1
    · intro hsplit
      obtain ⟨A1, A2, A3, A4, A5, A6⟩ := V1.alloc_split_v1 hsplit
      rw [h1]
      exact ⟨A4, A5, A6, A1, A3⟩
    · intro hnosplit
      obtain ⟨A1, A2, A3, A4⟩ := V1.alloc_nosplit_v1 hnosplit
      rw [h1]
      exact ⟨A1, A3⟩
  · intro m l n o hr hl hsel hn h255
    have hmod := Nat.mod_eq_of_lt h255
    have hmm := V3.my_malloc3_eq hl n
    rw [hmod] at hmm
    have h1 : (V3.my_malloc m n).1 = V3.allocAt m o n := by
      rw [hmm, hsel]
      rfl
    have h2 : (V3.my_malloc m n).2 = some (o + V3.HDR) := by
      rw [hmm, hsel]
      rfl
    obtain ⟨l₁, l₂, rfl, hpre, hfit⟩ := V3.firstFitIn3_decomp hsel
    have hS := V3.blocks3_suffix hl
    have hend := V3.blocks3_end_le hS
    have hnx := V3.blocks3_next_lt hS
    have hD : V3.HDR = 4 := rfl
    refine ⟨h2, ?_, ?_, ?_⟩
    · rw [h1]
      by_cases hsplit : V3.HDR < V3.size m o - n
      · exact (V3.allocAt3_split hfit.2 hend h255 hnx hsplit).2.1
      · exact (V3.allocAt3_nosplit hsplit).1
    · intro hsplit
      obtain ⟨A1, A2, A3, A4, A5, A6, A7, A8, A9⟩ :=
        V3.allocAt3_split hfit.2 hend h255 hnx hsplit
      rw [h1]
      exact ⟨A5, A6, A7, A1, A3⟩
    · intro hnosplit
      obtain ⟨B1, B2, B3⟩ := V3.allocAt3_nosplit hnosplit
      rw [h1]
      exact ⟨B3 o (by omega) (by omega), B3 (o + 2) (by omega) (by omega)⟩

/-- Claim C3, witness: on the fresh v2 heap the selected block is 0
with size 125; malloc(20) splits: new free header at offset 23 with
size 102 and next 0, block 0 shrinks to 20 with next 23, and the
returned address is payload 3.  On the fresh v1 heap malloc(20) aligns
the request to 24, splits block 0 (size 104) into an allocated block of
size 24 and a free block at offset 48 of size 56, returning payload
24.  On the fresh v3 heap malloc(20) splits block 0 (size 60): new
free header at offset 24 with size 36 and next 0, block 0 shrinks to
20 with next 24, returning payload 4. -/
theorem C3_split_policy_witness :
    (V2.firstFitIn V2.init_heap 20 [0] = some 0 ∧
     (V2.my_malloc V2.init_heap 20).2 = some 3 ∧
     V2.size (V2.my_malloc V2.init_heap 20).1 23 = 102 ∧
     V2.is_free (V2.my_malloc V2.init_heap 20).1 23 = 1 ∧
     V2.next (V2.my_malloc V2.init_heap 20).1 23 = 0 ∧
     V2.size (V2.my_malloc V2.init_heap 20).1 0 = 20 ∧
     V2.next (V2.my_malloc V2.init_heap 20).1 0 = 23) ∧
    (V1.firstFit V1.init_heap (V1.ALIGN 20) [0] = some 0 ∧
     (V1.my_malloc V1.init_heap 20).2 = some 24 ∧
     ((V1.my_malloc V1.init_heap 20).1 0).size = 24 ∧
     ((V1.my_malloc V1.init_heap 20).1 48).size = 56 ∧
     ((V1.my_malloc V1.init_heap 20).1 48).is_free = 1) ∧
    (V3.firstFitIn V3.init_heap 20 [0] = some 0 ∧
     (V3.my_malloc V3.init_heap 20).2 = some 4 ∧
     V3.size (V3.my_malloc V3.init_heap 20).1 24 = 36 ∧
     V3.is_free (V3.my_malloc V3.init_heap 20).1 24 = 1 ∧
     V3.next (V3.my_malloc V3.init_heap 20).1 24 = 0 ∧
     V3.size (V3.my_malloc V3.init_heap 20).1 0 = 20 ∧
     V3.next (V3.my_malloc V3.init_heap 20).1 0 = 24) := by
  refine ⟨?_, ?_, ?_⟩
  · have h := C3_split_policy.1 V2.init_heap [0] 20 0 V2.Reachable.init
      (V2.BlocksFrom.base 0 (by decide) (by decide)) (by decide) (by decide)
      (by decide)
    have hs := h.2.2.1 (by decide)
    exact ⟨by decide, h.1, hs.1.trans (by decide), hs.2.1,
      hs.2.2.1.trans (by decide), hs.2.2.2.1, hs.2.2.2.2⟩
  · have h := C3_split_policy.2.1 V1.init_heap [0] 20 0 V1.Reachable.init
      (V1.Blocks.base 0 (by decide) (by decide)) (by decide) (by decide)
    have hs := h.2.2.1 (by decide)
    exact ⟨by decide, h.1, hs.2.2.2.1.trans (by decide),
      hs.1.trans (by decide), hs.2.1⟩
  · have h := C3_split_policy.2.2 V3.init_heap [0] 20 0 V3.Reachable.init
      (V3.Blocks3.base 0 (by decide) (by decide)) (by decide) (by decide)
      (by decide)
    have hs := h.2.2.1 (by decide)
    exact ⟨by decide, h.1, hs.1.trans (by decide), hs.2.1,
      hs.2.2.1.trans (by decide), hs.2.2.2.1, hs.2.2.2.2⟩

/-- Claim C4: first-fit search, proved for v2_heap.c and for 1_heap.c
(with the aligned request).  On every reachable state the result of
my_malloc is the payload address of the first block in free-list order
that is free and at least as large as the (possibly aligned) request
(and the failure sentinel when no such block exists); in particular, in
the concrete v2 run that allocates 20 and 30 on the fresh heap and then
releases the first block, a subsequent malloc(10) reuses the freed
earlier block (payload 3) rather than the later tail free block. -/
theorem C4_first_fit :
    (∀ (m : V2.Mem) (l : List Nat) (n : Nat),
      V2.Reachable m → V2.BlocksFrom m 0 l → 0 < n → n < 256 →
      (V2.my_malloc m n).2 = (V2.firstFitIn m n l).map (fun b => b + V2.HDR)) ∧
    (∀ (m : V1.Mem) (l : List Nat) (n : Nat),
      V1.Reachable m → V1.Blocks m 0 l → 0 < n →
      (V1.my_malloc m n).2
        = (V1.firstFit m (V1.ALIGN n) l).map (fun b => b + V1.HDR)) ∧
    (V2.my_malloc (V2.my_free
      (V2.my_malloc (V2.my_malloc V2.init_heap 20).1 30).1 (some 3)) 10).2
      = some 3 := by
  refine ⟨?_, ?_, by decide⟩
  · intro m l n hr hl hn h255
    rw [V2.my_malloc_eq hl n, Nat.mod_eq_of_lt h255]
    cases hff : V2.firstFitIn m n l with
    | none => rfl
    | some o => rfl
  · intro m l n hr hl hn
    rw [V1.malloc_eq_v1 hl (by omega)]
    cases hff : V1.firstFit m (V1.ALIGN n) l with
    | none => rfl
    | some o => rfl

/-- Claim C4, witness: scenario B.  In the state reached by malloc(20),
malloc(30), free of the first block, the block list is [0, 23, 56] with
block 0 free of size 20 and block 56 the free tail; malloc(10) selects
the first fit, block 0, and returns its payload 3. -/
theorem C4_first_fit_witness :
    (V2.my_malloc (V2.my_free
      (V2.my_malloc (V2.my_malloc V2.init_heap 20).1 30).1 (some 3)) 10).2
      = (V2.firstFitIn (V2.my_free
          (V2.my_malloc (V2.my_malloc V2.init_heap 20).1 30).1 (some 3)) 10
          [0, 23, 56]).map (fun b => b + V2.HDR) ∧
    (V2.my_malloc (V2.my_free
      (V2.my_malloc (V2.my_malloc V2.init_heap 20).1 30).1 (some 3)) 10).2
      = some 3 := by
  have h := C4_first_fit.1
    (V2.my_free (V2.my_malloc (V2.my_malloc V2.init_heap 20).1 30).1 (some 3))
    [0, 23, 56] 10
    (V2.Reachable.step_free _ _
      (V2.Reachable.step_malloc _ 30
        (V2.Reachable.step_malloc _ 20 V2.Reachable.init)) (by decide))
    (V2.BlocksFrom.cons 0 [23, 56] (by decide) (by decide)
      (V2.BlocksFrom.cons 23 [56] (by decide) (by decide)
        (V2.BlocksFrom.base 56 (by decide) (by decide))))
    (by decide) (by decide)
  exact ⟨h, by decide⟩

/-- Claim C5: in every state reachable from init_heap by my_malloc,
my_free (on a valid release target) and coalesce_memory, the block list
walked from the anchor starts at offset 0, every non-terminal block's
next field is exactly the offset just past its own header plus payload,
traversal order is strictly ascending in arena offset, every block ends
within the arena, and the terminal block ends exactly at HEAP_SIZE —
so the blocks partition the arena with no gaps and no overlaps. -/
theorem C5_list_adjacency (m : V2.Mem) (hr : V2.Reachable m) :
    V2.BlocksFrom m 0 ((V2.chain m V2.free_list 128).getD []) ∧
    ((V2.chain m V2.free_list 128).getD []).head? = some 0 ∧
    List.Chain' (fun a b => V2.next m a = b ∧ a + V2.HDR + V2.size m a = b)
      ((V2.chain m V2.free_list 128).getD []) ∧
    List.Chain' (fun a b => a < b) ((V2.chain m V2.free_list 128).getD []) ∧
    (∀ b ∈ (V2.chain m V2.free_list 128).getD [],
      b + V2.HDR + V2.size m b ≤ V2.HEAP_SIZE) ∧
    (∀ b ∈ (V2.chain m V2.free_list 128).getD [],
      V2.next m b = 0 → b + V2.HDR + V2.size m b = V2.HEAP_SIZE) := by
  obtain ⟨l, hl⟩ := V2.reachable_wf hr
  have hch : V2.chain m 0 128 = some l :=
    V2.chain_of_blocksFrom hl (V2.blocksFrom_length_lt hl)
  simp only [V2.free_list]
  rw [hch]
  simp only [Option.getD_some]
  obtain ⟨l', rfl⟩ := V2.blocksFrom_head hl
  refine ⟨hl, rfl, V2.blocksFrom_chain' hl, ?_, V2.blocksFrom_mem_end_le hl,
    V2.blocksFrom_terminal hl⟩
  refine (V2.blocksFrom_chain' hl).imp ?_
  intro a b hab
  have hD : V2.HDR = 3 := rfl
  omega

/-- Claim C5, witness: the invariant instantiated at the freshly
initialized heap, whose block list is the single block [0]. -/
theorem C5_list_adjacency_witness :
    V2.BlocksFrom V2.init_heap 0
      ((V2.chain V2.init_heap V2.free_list 128).getD []) ∧
    ((V2.chain V2.init_heap V2.free_list 128).getD []).head? = some 0 ∧
    List.Chain' (fun a b => V2.next V2.init_heap a = b ∧
        a + V2.HDR + V2.size V2.init_heap a = b)
      ((V2.chain V2.init_heap V2.free_list 128).getD []) ∧
    List.Chain' (fun a b => a < b)
      ((V2.chain V2.init_heap V2.free_list 128).getD []) ∧
    (∀ b ∈ (V2.chain V2.init_heap V2.free_list 128).getD [],
      b + V2.HDR + V2.size V2.init_heap b ≤ V2.HEAP_SIZE) ∧
    (∀ b ∈ (V2.chain V2.init_heap V2.free_list 128).getD [],
      V2.next V2.init_heap b = 0 →
        b + V2.HDR + V2.size V2.init_heap b = V2.HEAP_SIZE) :=
  C5_list_adjacency V2.init_heap V2.Reachable.init

/-- Claim C6: round-trip, proved for v2_heap.c, 1_heap.c and the
coalescing v3_heap.c.  On every reachable state, if my_malloc(n)
succeeds and returns address a, then releasing a and immediately
calling my_malloc(n) again (no intervening operations) succeeds and
returns the very same address a (in v3 the released block may have
grown by the forward merge, and the same payload address is still the
one handed out). -/
theorem C6_roundtrip :
    (∀ (m : V2.Mem) (n a : Nat), V2.Reachable m → 0 < n → n < 256 →
      (V2.my_malloc m n).2 = some a →
      (V2.my_malloc (V2.my_free (V2.my_malloc m n).1 (some a)) n).2
        = some a) ∧
    (∀ (m : V1.Mem) (n a : Nat), V1.Reachable m → 0 < n →
      (V1.my_malloc m n).2 = some a →
      (V1.my_malloc (V1.my_free (V1.my_malloc m n).1 (some a)) n).2
        = some a) ∧
    (∀ (m : V3.Mem) (n a : Nat), V3.Reachable m → 0 < n → n < 256 →
      (V3.my_malloc m n).2 = some a →
      (V3.my_malloc (V3.my_free (V3.my_malloc m n).1 (some a)) n).2
        = some a) := by
  refine ⟨?_, ?_, ?_⟩
  · intro m n a hr hn h255 hsucc
    obtain ⟨l, hl⟩ := V2.reachable_wf hr
    exact V2.roundtrip_aux hl h255 hsucc
  · intro m n a hr hn hsucc
    obtain ⟨l, hl⟩ := V1.reachable_wf_v1 hr
    exact V1.roundtrip_v1 hl hn hsucc
  · intro m n a hr hn h255 hsucc
    obtain ⟨l, hl⟩ := V3.reachable_wf3 hr
    exact V3.roundtrip3 hl h255 hsucc

/-- Claim C6, witness: on the fresh v2 heap, malloc(20) returns address
3; freeing 3 and calling malloc(20) again returns 3 once more.  On the
fresh v1 heap the same round trip returns address 24 twice, and on the
fresh v3 heap it returns address 4 twice (there the release merges the
block back with its split-off free neighbor first). -/
theorem C6_roundtrip_witness :
    ((V2.my_malloc V2.init_heap 20).2 = some 3 ∧
     (V2.my_malloc (V2.my_free (V2.my_malloc V2.init_heap 20).1 (some 3)) 20).2
       = some 3) ∧
    ((V1.my_malloc V1.init_heap 20).2 = some 24 ∧
     (V1.my_malloc (V1.my_free (V1.my_malloc V1.init_heap 20).1 (some 24)) 20).2
       = some 24) ∧
    ((V3.my_malloc V3.init_heap 20).2 = some 4 ∧
     (V3.my_malloc (V3.my_free (V3.my_malloc V3.init_heap 20).1 (some 4)) 20).2
       = some 4) :=
  ⟨⟨by decide,
    C6_roundtrip.1 V2.init_heap 20 3 V2.Reachable.init (by decide) (by decide)
      (by decide)⟩,
   ⟨by decide,
    C6_roundtrip.2.1 V1.init_heap 20 24 V1.Reachable.init (by decide)
      (by decide)⟩,
   ⟨by decide,
    C6_roundtrip.2.2 V3.init_heap 20 4 V3.Reachable.init (by decide) (by decide)
      (by decide)⟩⟩

/-- Claim C8: termination.  On every reachable v2 state the free-list
walk of my_malloc (for any request), the full-sweep coalesce loop and
the introspection traversal all finish within fuel 128 (they never
exhaust it), because the block list is finite and its next links move
strictly forward in the arena; the my_malloc walk of 1_heap.c likewise
always finishes. -/
theorem C8_termination :
    (∀ (m : V2.Mem) (n : Nat), V2.Reachable m →
      (V2.malloc_loop m n V2.free_list 128).isSome ∧
      (V2.coalesce_loop m V2.free_list 128).isSome ∧
      (V2.print_loop m V2.free_list 128).isSome ∧
      V2.BlocksFrom m 0 ((V2.chain m V2.free_list 128).getD []) ∧
      List.Chain' (fun a b => a < b) ((V2.chain m V2.free_list 128).getD [])) ∧
    (∀ (m : V1.Mem) (n : Nat), V1.Reachable m →
      (V1.malloc_loop m n (some V1.free_list) 128).isSome) := by
  constructor
  · intro m n hr
    obtain ⟨l, hl⟩ := V2.reachable_wf hr
    have hlen := V2.blocksFrom_length_lt hl
    have hch : V2.chain m 0 128 = some l := V2.chain_of_blocksFrom hl hlen
    simp only [V2.free_list]
    rw [hch]
    simp only [Option.getD_some]
    refine ⟨?_, ?_, ?_, hl, ?_⟩
    · rw [V2.malloc_loop_spec hl hlen n]
      rfl
    · obtain ⟨rest, rfl⟩ := V2.blocksFrom_head hl
      obtain ⟨m', l', hcl, _, _⟩ := V2.coalesce_loop_spec 128 m 0 rest hl hlen
      rw [hcl]
      rfl
    · exact V2.print_loop_isSome hl hlen
    · refine (V2.blocksFrom_chain' hl).imp ?_
      intro a b hab
      have hD : V2.HDR = 3 := rfl
      omega
  · intro m n hr
    obtain ⟨l, hl⟩ := V1.reachable_wf_v1 hr
    simp only [V1.free_list]
    rw [V1.loop_spec_v1 hl (V1.blocks_length_lt hl) n]
    rfl

/-- Claim C8, witness: the termination facts instantiated at the fresh
v2 and v1 heaps with request 20. -/
theorem C8_termination_witness :
    ((V2.malloc_loop V2.init_heap 20 V2.free_list 128).isSome ∧
     (V2.coalesce_loop V2.init_heap V2.free_list 128).isSome ∧
     (V2.print_loop V2.init_heap V2.free_list 128).isSome ∧
     V2.BlocksFrom V2.init_heap 0
       ((V2.chain V2.init_heap V2.free_list 128).getD []) ∧
     List.Chain' (fun a b => a < b)
       ((V2.chain V2.init_heap V2.free_list 128).getD [])) ∧
    (V1.malloc_loop V1.init_heap 20 (some V1.free_list) 128).isSome :=
  ⟨C8_termination.1 V2.init_heap 20 V2.Reachable.init,
   C8_termination.2 V1.init_heap 20 V1.Reachable.init⟩
